import Mathlib

/-!
Verification of the tillhub-serialio core against its specification.

The development shallowly embeds the final iteration of the source
(`dist/components/message.js`, `dist/components/transactionHolder.js`,
`src/components/dataParser.ts`, `dist/serialIO.js`) into Lean:

* byte buffers are `List Nat` (each entry one byte),
* `Message`, `DataParser.parseData`, `TransactionHolder` and the engine's
  inbound/outbound dispatch are translated function by function,
* the stream parser's `while` loop is realised with an explicit fuel
  argument plus a proof that the chosen fuel is always sufficient.
-/

namespace Serialio

/-- Big-endian byte serialisation of a 32-bit value, as performed by
`Buffer.writeUInt32BE` (the value is assumed `< 2^32` by Node). -/
def writeUInt32BE (n : Nat) : List Nat :=
  [n / 0x1000000 % 256, n / 0x10000 % 256, n / 0x100 % 256, n % 256]

/-- Big-endian byte serialisation of a 16-bit value (`Buffer.writeUInt16BE`). -/
def writeUInt16BE (n : Nat) : List Nat :=
  [n / 256 % 256, n % 256]

/-- Byte store of `Buffer.writeUInt8`. -/
def writeUInt8 (n : Nat) : List Nat :=
  [n % 256]

/-- Big-endian read of four bytes at `off` (`Buffer.readUInt32BE`).
Out-of-range bytes default to 0; call sites in the source are bounds-guarded. -/
def readUInt32BE (b : List Nat) (off : Nat) : Nat :=
  b.getD off 0 * 0x1000000 + b.getD (off + 1) 0 * 0x10000 +
    b.getD (off + 2) 0 * 0x100 + b.getD (off + 3) 0

/-- Big-endian read of two bytes at `off` (`Buffer.readUInt16BE`). -/
def readUInt16BE (b : List Nat) (off : Nat) : Nat :=
  b.getD off 0 * 256 + b.getD (off + 1) 0

/-- Single byte read (`Buffer.readUInt8`). -/
def readUInt8 (b : List Nat) (off : Nat) : Nat :=
  b.getD off 0

/-- The frame magic: `startSequence.writeUInt32BE(0xf000000f, 0)` from
`dist/components/message.js`. -/
def START_SEQUENCE : List Nat := writeUInt32BE 0xf000000f

/-- Offsets of the `META_OFFSET` enum of `message.js`. -/
def META_OFFSET_START : Nat := 0

/-- Offset of the LENGTH header field. -/
def META_OFFSET_LENGTH : Nat := 4

/-- Offset of the ID header field. -/
def META_OFFSET_ID : Nat := 8

/-- Offset of the TYPE header field. -/
def META_OFFSET_TYPE : Nat := 10

/-- Offset of the payload; also the total header size. -/
def META_OFFSET_DATA : Nat := 11

/-- Message type codes of the `TYPE` enum of `message.js`. -/
def TYPE_REQUEST : Nat := 0x00

/-- PING message type code. -/
def TYPE_PING : Nat := 0x01

/-- REPLY message type code. -/
def TYPE_REPLY : Nat := 0xfe

/-- ERROR message type code. -/
def TYPE_ERROR : Nat := 0xff

/-- A `Message` value is a view over the raw framed buffer
(class `Message` of `message.js`). -/
structure Message where
  raw : List Nat
deriving DecidableEq

namespace Message

/-- Accessor `get start()`. -/
def start (m : Message) : Nat := readUInt32BE m.raw META_OFFSET_START

/-- Accessor `get length()`: the payload length header field. -/
def length (m : Message) : Nat := readUInt32BE m.raw META_OFFSET_LENGTH

/-- Accessor `get id()`. -/
def id (m : Message) : Nat := readUInt16BE m.raw META_OFFSET_ID

/-- Accessor `get type()`. -/
def type (m : Message) : Nat := readUInt8 m.raw META_OFFSET_TYPE

/-- Accessor `get rawData()`: the payload bytes. -/
def rawData (m : Message) : List Nat := m.raw.drop META_OFFSET_DATA

/-- Accessor `get data()`: the payload as text; text is modelled by its bytes. -/
def data (m : Message) : List Nat := m.rawData

/-- `Message.create(data, type, id)`: allocate header plus payload and fill in
start sequence, length, id, type and payload bytes. -/
def create (data : List Nat) (type : Nat) (id : Nat) : Message :=
  ⟨START_SEQUENCE ++ writeUInt32BE data.length ++ writeUInt16BE id ++
    writeUInt8 type ++ data⟩

end Message

/-- Mutable state of a `DataParser` instance: the accumulated unconsumed
bytes (`_buffer`, `none` modelled as `[]`) and the `_pendingMessage` flag. -/
structure ParserState where
  buffer : List Nat
  pendingMessage : Bool
deriving DecidableEq

/-- State of a freshly constructed `DataParser`. -/
def ParserState.init : ParserState := ⟨[], false⟩

/-- First index at which the 4-byte `START_SEQUENCE` occurs in `s`
(`Buffer.indexOf(Message.START_SEQUENCE)`; `none` for `-1`). -/
def findStartIdx : List Nat → Option Nat
  | [] => none
  | a :: rest =>
    if (a :: rest).take 4 = START_SEQUENCE then some 0
    else (findStartIdx rest).map (· + 1)

/-- First index `≥ off` at which `START_SEQUENCE` occurs
(`Buffer.indexOf(Message.START_SEQUENCE, off)`). -/
def findStartIdxFrom (b : List Nat) (off : Nat) : Option Nat :=
  (findStartIdx (b.drop off)).map (· + off)

/-- The `nextMsgIndex > -1 && nextMsgIndex < _rawSize` test of `parseData`:
the index that aborts the pending message, if any. -/
def abortIdx (b : List Nat) (rawSize : Nat) : Option Nat :=
  match findStartIdxFrom b 4 with
  | some j => if j < rawSize then some j else none
  | none => none

/-- The `while` loop of `DataParser.parseData`, with explicit fuel.  Returns
the parsed messages (in emission order) and the final parser state.  With the
fuel used by `parseLoop` below the fuel-exhaustion branch is unreachable. -/
def parseLoopF : Nat → List Nat → Bool → List Message × ParserState
  | 0, b, p => ([], ⟨b, p⟩)
  | fuel + 1, b, p =>
    if META_OFFSET_DATA ≤ b.length then
      if p = false then
        match findStartIdx b with
        | none =>
          -- found no message: keep only the last START_SEQUENCE.length - 1 bytes
          ([], ⟨b.drop (b.length - 3), false⟩)
        | some i => parseLoopF fuel (b.drop i) true
      else
        let mLength := readUInt32BE b META_OFFSET_LENGTH
        let rawSize := mLength + META_OFFSET_DATA
        match abortIdx b rawSize with
        | some j =>
          -- new message received before old one completed: reset buffer
          parseLoopF fuel (b.drop j) true
        | none =>
          if b.length < rawSize then
            -- message is incomplete: wait for more data
            ([], ⟨b, true⟩)
          else
            -- message is complete: emit it and continue on the remainder
            let r := parseLoopF fuel (b.drop rawSize) false
            (⟨b.take rawSize⟩ :: r.1, r.2)
    else ([], ⟨b, p⟩)

/-- Loop measure: every loop iteration strictly decreases it. -/
def mea (b : List Nat) (p : Bool) : Nat :=
  2 * b.length + (if p then 0 else 1)

/-- The parse loop started with adequate fuel. -/
def parseLoop (b : List Nat) (p : Bool) : List Message × ParserState :=
  parseLoopF (mea b p + 1) b p

/-- `DataParser.parseData(data)`: append the chunk to the buffer and run the
loop.  Returns the messages delivered to the `onMessage` handler and the
resulting parser state. -/
def parseData (s : ParserState) (data : List Nat) : List Message × ParserState :=
  parseLoop (s.buffer ++ data) s.pendingMessage

/-- Feeding a list of chunks one `parseData` call at a time. -/
def runChunks (s : ParserState) : List (List Nat) → List Message × ParserState
  | [] => ([], s)
  | c :: cs =>
    let r := parseData s c
    let r2 := runChunks r.2 cs
    (r.1 ++ r2.1, r2.2)

/-- The 4-byte start sequence occurs in `s` at index `i`. -/
def magicAt (s : List Nat) (i : Nat) : Prop :=
  (s.drop i).take 4 = START_SEQUENCE

instance (s : List Nat) (i : Nat) : Decidable (magicAt s i) :=
  inferInstanceAs (Decidable (_ = _))

theorem magicAt_le (s : List Nat) (i : Nat) (h : magicAt s i) : i + 4 ≤ s.length := by
  have hl := congrArg List.length h
  simp [START_SEQUENCE, writeUInt32BE, List.length_take, List.length_drop] at hl
  omega

theorem magicAt_zero (s : List Nat) : magicAt s 0 ↔ s.take 4 = START_SEQUENCE := Iff.rfl

theorem magicAt_cons_succ (a : Nat) (s : List Nat) (i : Nat) :
    magicAt (a :: s) (i + 1) ↔ magicAt s i := Iff.rfl

theorem findStartIdx_some_iff (s : List Nat) (m : Nat) :
    findStartIdx s = some m ↔ magicAt s m ∧ ∀ k, k < m → ¬ magicAt s k := by
  induction s generalizing m with
  | nil =>
    simp only [findStartIdx]
    constructor
    · intro h; cases h
    · rintro ⟨hm, _⟩
      have := magicAt_le [] m hm
      simp at this
  | cons a rest ih =>
    by_cases h4 : (a :: rest).take 4 = START_SEQUENCE
    · simp only [findStartIdx, h4, if_true]
      constructor
      · rintro h
        cases h
        exact ⟨h4, fun k hk => absurd hk (Nat.not_lt_zero k)⟩
      · rintro ⟨hm, hmin⟩
        rcases Nat.eq_zero_or_pos m with rfl | hpos
        · rfl
        · exact absurd (hmin 0 hpos h4) (fun hc => hc)
    · simp only [findStartIdx, h4, if_false, Option.map_eq_some']
      constructor
      · rintro ⟨m', hm', rfl⟩
        rcases (ih m').mp hm' with ⟨hmag, hmin⟩
        refine ⟨hmag, ?_⟩
        intro k hk
        cases k with
        | zero => exact fun hc => h4 hc
        | succ k' =>
          rw [magicAt_cons_succ]
          exact hmin k' (Nat.lt_of_succ_lt_succ hk)
      · rintro ⟨hmag, hmin⟩
        cases m with
        | zero => exact absurd hmag h4
        | succ m' =>
          refine ⟨m', (ih m').mpr ⟨hmag, ?_⟩, rfl⟩
          intro k hk
          exact hmin (k + 1) (Nat.succ_lt_succ hk)

theorem magicAt_drop (b : List Nat) (n i : Nat) :
    magicAt (b.drop n) i ↔ magicAt b (n + i) := by
  unfold magicAt
  rw [List.drop_drop]

theorem findStartIdx_none_iff (s : List Nat) :
    findStartIdx s = none ↔ ∀ k, ¬ magicAt s k := by
  induction s with
  | nil =>
    simp only [findStartIdx]
    constructor
    · intro _ k hk
      have := magicAt_le [] k hk
      simp at this
    · intro _; trivial
  | cons a rest ih =>
    by_cases h4 : (a :: rest).take 4 = START_SEQUENCE
    · simp only [findStartIdx, h4, if_true]
      constructor
      · intro h; cases h
      · intro h
        exact absurd h4 (h 0)
    · simp only [findStartIdx, h4, if_false, Option.map_eq_none']
      rw [ih]
      constructor
      · intro h k
        cases k with
        | zero => exact fun hc => h4 hc
        | succ k' => exact h k'
      · intro h k
        exact h (k + 1)

theorem findStartIdxFrom_some_iff (b : List Nat) (off j : Nat) :
    findStartIdxFrom b off = some j ↔
      off ≤ j ∧ magicAt b j ∧ ∀ k, off ≤ k → k < j → ¬ magicAt b k := by
  unfold findStartIdxFrom
  rw [Option.map_eq_some']
  constructor
  · rintro ⟨m, hm, rfl⟩
    rcases (findStartIdx_some_iff _ m).mp hm with ⟨hmag, hmin⟩
    rw [magicAt_drop] at hmag
    refine ⟨by omega, by rwa [Nat.add_comm off m] at hmag, ?_⟩
    intro k hok hkj hmagk
    have hk' : magicAt (b.drop off) (k - off) := by
      rw [magicAt_drop]
      rwa [show off + (k - off) = k by omega]
    exact hmin (k - off) (by omega) hk'
  · rintro ⟨hoj, hmag, hmin⟩
    refine ⟨j - off, (findStartIdx_some_iff _ _).mpr ⟨?_, ?_⟩, by omega⟩
    · rw [magicAt_drop]
      rwa [show off + (j - off) = j by omega]
    · intro k hk hmagk
      rw [magicAt_drop] at hmagk
      exact hmin (off + k) (Nat.le_add_right off k) (by omega) hmagk

theorem findStartIdxFrom_none_iff (b : List Nat) (off : Nat) :
    findStartIdxFrom b off = none ↔ ∀ k, off ≤ k → ¬ magicAt b k := by
  unfold findStartIdxFrom
  rw [Option.map_eq_none', findStartIdx_none_iff]
  constructor
  · intro h k hok hmag
    refine h (k - off) ?_
    rw [magicAt_drop]
    rwa [show off + (k - off) = k by omega]
  · intro h k hmag
    rw [magicAt_drop] at hmag
    exact h (off + k) (Nat.le_add_right off k) hmag

theorem abortIdx_bound (b : List Nat) (r j : Nat) (h : abortIdx b r = some j) :
    4 ≤ j ∧ j < r ∧ magicAt b j ∧ ∀ k, 4 ≤ k → k < j → ¬ magicAt b k := by
  unfold abortIdx at h
  cases hf : findStartIdxFrom b 4 with
  | none =>
    rw [hf] at h
    cases h
  | some m =>
    rw [hf] at h
    replace h : (if m < r then some m else none) = some j := h
    by_cases hr : m < r
    · rw [if_pos hr] at h
      rcases (findStartIdxFrom_some_iff b 4 m).mp hf with ⟨h1, h2, h3⟩
      cases h
      exact ⟨h1, hr, h2, h3⟩
    · rw [if_neg hr] at h; cases h

theorem abortIdx_none_iff (b : List Nat) (r : Nat) :
    abortIdx b r = none ↔ ∀ k, 4 ≤ k → k < r → ¬ magicAt b k := by
  unfold abortIdx
  cases hf : findStartIdxFrom b 4 with
  | none =>
    simp only [true_iff]
    rw [findStartIdxFrom_none_iff] at hf
    exact fun k h4 _ => hf k h4
  | some j =>
    rcases (findStartIdxFrom_some_iff b 4 j).mp hf with ⟨h4, hmag, hmin⟩
    show (if j < r then some j else none) = none ↔ _
    by_cases hr : j < r
    · simp only [if_pos hr]
      constructor
      · intro h; cases h
      · intro h
        exact absurd hmag (h j h4 hr)
    · simp only [if_neg hr, true_iff]
      intro k hk4 hkr hmagk
      exact hmin k hk4 (by omega) hmagk

theorem parseLoopF_congr (f g : Nat) (b : List Nat) (p : Bool)
    (h : ∀ b' p', mea b' p' < mea b p → parseLoopF f b' p' = parseLoopF g b' p') :
    parseLoopF (f + 1) b p = parseLoopF (g + 1) b p := by
  simp only [parseLoopF]
  by_cases hlen : META_OFFSET_DATA ≤ b.length
  · simp only [hlen, if_true]
    by_cases hp : p = false
    · subst hp
      simp only [if_true]
      cases hfind : findStartIdx b with
      | none => rfl
      | some i =>
        exact h (b.drop i) true (by simp [mea, List.length_drop]; omega)
    · have hp' : p = true := by
        cases p
        · exact absurd rfl hp
        · rfl
      subst hp'
      rw [if_neg (show ¬ (true = false) by decide), if_neg (show ¬ (true = false) by decide)]
      have hlen' : 11 ≤ b.length := by
        simpa [META_OFFSET_DATA] using hlen
      cases habort : abortIdx b (readUInt32BE b META_OFFSET_LENGTH + META_OFFSET_DATA) with
      | some j =>
        simp only [habort]
        rcases abortIdx_bound _ _ _ habort with ⟨hj4, _, _, _⟩
        exact h (b.drop j) true (by simp [mea, List.length_drop]; omega)
      | none =>
        simp only [habort]
        by_cases hc : b.length < readUInt32BE b META_OFFSET_LENGTH + META_OFFSET_DATA
        · simp only [if_pos hc]
        · simp only [if_neg hc]
          have := h (b.drop (readUInt32BE b META_OFFSET_LENGTH + META_OFFSET_DATA)) false
            (by simp [mea, META_OFFSET_DATA, List.length_drop] at *; omega)
          rw [this]
  · rw [if_neg hlen, if_neg hlen]

theorem parseLoopF_fuel (f : Nat) :
    ∀ b p, mea b p < f → parseLoopF f b p = parseLoop b p := by
  induction f using Nat.strong_induction_on with
  | _ f IH =>
    intro b p hf
    obtain ⟨f', rfl⟩ : ∃ f', f = f' + 1 := ⟨f - 1, by omega⟩
    unfold parseLoop
    apply parseLoopF_congr
    intro b' p' hlt
    have h1 : parseLoopF f' b' p' = parseLoop b' p' := by
      apply IH f' (Nat.lt_succ_self f')
      omega
    have h2 : parseLoopF (mea b p) b' p' = parseLoop b' p' := by
      apply IH (mea b p) hf
      omega
    rw [h1, h2]

/-- One unfolding of the parse loop, phrased entirely in terms of
`parseLoop` itself.  All later reasoning about the loop goes through this
equation. -/
theorem parseLoop_unfold (b : List Nat) (p : Bool) :
    parseLoop b p =
      if META_OFFSET_DATA ≤ b.length then
        if p = false then
          match findStartIdx b with
          | none => ([], ⟨b.drop (b.length - 3), false⟩)
          | some i => parseLoop (b.drop i) true
        else
          match abortIdx b (readUInt32BE b META_OFFSET_LENGTH + META_OFFSET_DATA) with
          | some j => parseLoop (b.drop j) true
          | none =>
            if b.length < readUInt32BE b META_OFFSET_LENGTH + META_OFFSET_DATA then
              ([], ⟨b, true⟩)
            else
              ((⟨b.take (readUInt32BE b META_OFFSET_LENGTH + META_OFFSET_DATA)⟩ : Message) ::
                  (parseLoop (b.drop (readUInt32BE b META_OFFSET_LENGTH + META_OFFSET_DATA)) false).1,
                (parseLoop (b.drop (readUInt32BE b META_OFFSET_LENGTH + META_OFFSET_DATA)) false).2)
      else ([], ⟨b, p⟩) := by
  have hbody : parseLoop b p = parseLoopF (mea b p + 1) b p := rfl
  rw [hbody]
  have hN : mea b p = mea b p := rfl
  generalize hmea : mea b p = N at *
  simp only [parseLoopF]
  by_cases hlen : META_OFFSET_DATA ≤ b.length
  · simp only [hlen, if_true]
    by_cases hp : p = false
    · subst hp
      simp only [if_true]
      cases hfind : findStartIdx b with
      | none => rfl
      | some i =>
        apply parseLoopF_fuel
        simp [mea, List.length_drop] at *
        omega
    · have hp' : p = true := by
        cases p
        · exact absurd rfl hp
        · rfl
      subst hp'
      rw [if_neg (show ¬ (true = false) by decide), if_neg (show ¬ (true = false) by decide)]
      have hlen' : 11 ≤ b.length := by
        simpa [META_OFFSET_DATA] using hlen
      cases habort : abortIdx b (readUInt32BE b META_OFFSET_LENGTH + META_OFFSET_DATA) with
      | some j =>
        simp only [habort]
        rcases abortIdx_bound _ _ _ habort with ⟨hj4, _, _, _⟩
        apply parseLoopF_fuel
        simp [mea, List.length_drop] at *
        omega
      | none =>
        simp only [habort]
        by_cases hc : b.length < readUInt32BE b META_OFFSET_LENGTH + META_OFFSET_DATA
        · simp only [if_pos hc]
        · simp only [if_neg hc]
          have hfuel : parseLoopF N (b.drop (readUInt32BE b META_OFFSET_LENGTH + META_OFFSET_DATA)) false =
              parseLoop (b.drop (readUInt32BE b META_OFFSET_LENGTH + META_OFFSET_DATA)) false := by
            apply parseLoopF_fuel
            simp [mea, META_OFFSET_DATA, List.length_drop] at *
            omega
          rw [hfuel]
  · rw [if_neg hlen, if_neg hlen]

/-- Loop exit when fewer than header-size bytes are buffered. -/
theorem parseLoop_short (b : List Nat) (p : Bool) (h : b.length < META_OFFSET_DATA) :
    parseLoop b p = ([], ⟨b, p⟩) := by
  rw [parseLoop_unfold, if_neg (Nat.not_le.mpr h)]

/-- Loop exit in the branch where no start sequence was found: all but the
last 3 bytes are dropped. -/
theorem parseLoop_noStart (b : List Nat) (hlen : META_OFFSET_DATA ≤ b.length)
    (h : findStartIdx b = none) :
    parseLoop b false = ([], ⟨b.drop (b.length - 3), false⟩) := by
  rw [parseLoop_unfold]
  simp only [hlen, if_true, h]

/-- Loop step when a start sequence is found in the not-pending branch. -/
theorem parseLoop_foundStart (b : List Nat) (i : Nat)
    (hlen : META_OFFSET_DATA ≤ b.length) (h : findStartIdx b = some i) :
    parseLoop b false = parseLoop (b.drop i) true := by
  rw [parseLoop_unfold]
  simp only [hlen, if_true, h]

/-- Loop step when a fresh start sequence aborts the pending message. -/
theorem parseLoop_abort (b : List Nat) (j : Nat)
    (hlen : META_OFFSET_DATA ≤ b.length)
    (h : abortIdx b (readUInt32BE b META_OFFSET_LENGTH + META_OFFSET_DATA) = some j) :
    parseLoop b true = parseLoop (b.drop j) true := by
  rw [parseLoop_unfold, if_pos hlen, if_neg (show ¬ (true = false) by decide), h]

/-- Loop exit when the pending message is still incomplete. -/
theorem parseLoop_incomplete (b : List Nat)
    (hlen : META_OFFSET_DATA ≤ b.length)
    (ha : abortIdx b (readUInt32BE b META_OFFSET_LENGTH + META_OFFSET_DATA) = none)
    (hin : b.length < readUInt32BE b META_OFFSET_LENGTH + META_OFFSET_DATA) :
    parseLoop b true = ([], ⟨b, true⟩) := by
  rw [parseLoop_unfold, if_pos hlen, if_neg (show ¬ (true = false) by decide), ha, if_pos hin]

/-- Loop step when the pending message is complete: it is emitted and the
loop continues past it. -/
theorem parseLoop_complete (b : List Nat)
    (hlen : META_OFFSET_DATA ≤ b.length)
    (ha : abortIdx b (readUInt32BE b META_OFFSET_LENGTH + META_OFFSET_DATA) = none)
    (hcom : readUInt32BE b META_OFFSET_LENGTH + META_OFFSET_DATA ≤ b.length) :
    parseLoop b true =
      ((⟨b.take (readUInt32BE b META_OFFSET_LENGTH + META_OFFSET_DATA)⟩ : Message) ::
          (parseLoop (b.drop (readUInt32BE b META_OFFSET_LENGTH + META_OFFSET_DATA)) false).1,
        (parseLoop (b.drop (readUInt32BE b META_OFFSET_LENGTH + META_OFFSET_DATA)) false).2) := by
  rw [parseLoop_unfold, if_pos hlen, if_neg (show ¬ (true = false) by decide), ha,
    if_neg (Nat.not_lt.mpr hcom)]

theorem getD_drop (b : List Nat) (n i : Nat) :
    (b.drop n).getD i 0 = b.getD (n + i) 0 := by
  induction b generalizing n with
  | nil => simp
  | cons a rest ih =>
    cases n with
    | zero => simp
    | succ n' =>
      have h1 : (a :: rest).drop (n' + 1) = rest.drop n' := rfl
      have h2 : (a :: rest).getD (n' + 1 + i) 0 = rest.getD (n' + i) 0 := by
        rw [show n' + 1 + i = (n' + i) + 1 by omega]
        rfl
      rw [h1, ih, h2]

theorem readUInt32BE_drop (b : List Nat) (n off : Nat) :
    readUInt32BE (b.drop n) off = readUInt32BE b (n + off) := by
  unfold readUInt32BE
  rw [getD_drop, getD_drop, getD_drop, getD_drop,
    show n + (off + 1) = n + off + 1 by omega,
    show n + (off + 2) = n + off + 2 by omega,
    show n + (off + 3) = n + off + 3 by omega]

theorem readUInt32BE_append (s d : List Nat) (off : Nat) (h : off + 4 ≤ s.length) :
    readUInt32BE (s ++ d) off = readUInt32BE s off := by
  unfold readUInt32BE
  rw [List.getD_append _ _ _ _ (by omega), List.getD_append _ _ _ _ (by omega),
    List.getD_append _ _ _ _ (by omega), List.getD_append _ _ _ _ (by omega)]

theorem magicAt_append_left (s d : List Nat) (k : Nat) (h : magicAt s k) :
    magicAt (s ++ d) k := by
  have hk := magicAt_le s k h
  unfold magicAt at *
  rw [List.drop_append_of_le_length (by omega),
    List.take_append_of_le_length (by simp [List.length_drop]; omega)]
  exact h

theorem magicAt_append_inv (s d : List Nat) (k : Nat) (h : magicAt (s ++ d) k)
    (hk : k + 4 ≤ s.length) : magicAt s k := by
  unfold magicAt at *
  rwa [List.drop_append_of_le_length (by omega),
    List.take_append_of_le_length (by simp [List.length_drop]; omega)] at h

/-- The first start-sequence occurrence is unaffected by appending data. -/
theorem findStartIdx_append (s d : List Nat) (m : Nat) (h : findStartIdx s = some m) :
    findStartIdx (s ++ d) = some m := by
  rcases (findStartIdx_some_iff s m).mp h with ⟨hmag, hmin⟩
  have hm4 := magicAt_le s m hmag
  refine (findStartIdx_some_iff _ m).mpr ⟨magicAt_append_left s d m hmag, ?_⟩
  intro k hk hmagk
  exact hmin k hk (magicAt_append_inv s d k hmagk (by omega))

theorem create_raw (d : List Nat) (ty i : Nat) :
    (Message.create d ty i).raw =
      START_SEQUENCE ++ writeUInt32BE d.length ++ writeUInt16BE i ++
        writeUInt8 ty ++ d := rfl

theorem create_raw_length (d : List Nat) (ty i : Nat) :
    (Message.create d ty i).raw.length = d.length + 11 := by
  simp [create_raw, START_SEQUENCE, writeUInt32BE, writeUInt16BE, writeUInt8]

theorem create_read_length (d : List Nat) (ty i : Nat) (h : d.length < 2 ^ 32) :
    readUInt32BE (Message.create d ty i).raw META_OFFSET_LENGTH = d.length := by
  have e : readUInt32BE (Message.create d ty i).raw META_OFFSET_LENGTH =
      d.length / 0x1000000 % 256 * 0x1000000 + d.length / 0x10000 % 256 * 0x10000 +
        d.length / 0x100 % 256 * 0x100 + d.length % 256 := rfl
  rw [e]
  omega

theorem create_id (d : List Nat) (ty i : Nat) (h : i < 65536) :
    (Message.create d ty i).id = i := by
  have e : (Message.create d ty i).id = i / 256 % 256 * 256 + i % 256 := rfl
  rw [e]
  omega

theorem create_type (d : List Nat) (ty i : Nat) (h : ty < 256) :
    (Message.create d ty i).type = ty := by
  have e : (Message.create d ty i).type = ty % 256 := rfl
  rw [e]
  omega

theorem create_rawData (d : List Nat) (ty i : Nat) :
    (Message.create d ty i).rawData = d := rfl

theorem create_magic (d : List Nat) (ty i : Nat) :
    (Message.create d ty i).raw.take 4 = START_SEQUENCE := rfl

/-- Occurrence facts quantified over all indices can be established by
checking the indices inside the buffer only. -/
theorem forall_magicAt_of_lt (s : List Nat) (P : Nat → Prop)
    (h : ∀ j, j < s.length → magicAt s j → P j) : ∀ j, magicAt s j → P j :=
  fun j hj => h j (by have := magicAt_le s j hj; omega) hj

/-- Claim C4, amended.  Framing one message and feeding the framed buffer to a
fresh parser yields back exactly that message, with payload, type and id
intact — provided the framed buffer contains no occurrence of the start
sequence other than the frame's own one at offset 0 (a payload carrying the
magic aborts the frame: see the counterexample), the payload fits the 32-bit
length field, the type fits one byte and the id fits two bytes. -/
theorem c4_amended_thm (payload : List Nat) (ty idv : Nat)
    (h32 : payload.length < 2 ^ 32) (hty : ty < 256) (hid : idv < 65536)
    (hmag : ∀ j, magicAt (Message.create payload ty idv).raw j → j = 0) :
    parseData ParserState.init (Message.create payload ty idv).raw =
        ([Message.create payload ty idv], ⟨[], false⟩) ∧
      (Message.create payload ty idv).rawData = payload ∧
      (Message.create payload ty idv).type = ty ∧
      (Message.create payload ty idv).id = idv := by
  have hraw : (Message.create payload ty idv).raw.length = payload.length + 11 :=
    create_raw_length _ _ _
  have hlen : META_OFFSET_DATA ≤ (Message.create payload ty idv).raw.length := by
    simp [META_OFFSET_DATA, hraw]
  have hmag0 : magicAt (Message.create payload ty idv).raw 0 := create_magic _ _ _
  have hfind : findStartIdx (Message.create payload ty idv).raw = some 0 :=
    (findStartIdx_some_iff _ 0).mpr ⟨hmag0, fun k hk => absurd hk (Nat.not_lt_zero k)⟩
  have hread : readUInt32BE (Message.create payload ty idv).raw META_OFFSET_LENGTH =
      payload.length := create_read_length _ _ _ h32
  have hsize : readUInt32BE (Message.create payload ty idv).raw META_OFFSET_LENGTH +
      META_OFFSET_DATA = (Message.create payload ty idv).raw.length := by
    simp [hread, hraw, META_OFFSET_DATA]
  have habort : abortIdx (Message.create payload ty idv).raw
      (readUInt32BE (Message.create payload ty idv).raw META_OFFSET_LENGTH +
        META_OFFSET_DATA) = none := by
    rw [abortIdx_none_iff]
    intro k hk4 _ hmagk
    have := hmag k hmagk
    omega
  have hcom : readUInt32BE (Message.create payload ty idv).raw META_OFFSET_LENGTH +
      META_OFFSET_DATA ≤ (Message.create payload ty idv).raw.length := by
    rw [hsize]
  have h1 : parseData ParserState.init (Message.create payload ty idv).raw =
      parseLoop (Message.create payload ty idv).raw false := by
    unfold parseData ParserState.init
    rw [List.nil_append]
  refine ⟨?_, create_rawData _ _ _, create_type _ _ _ hty, create_id _ _ _ hid⟩
  rw [h1, parseLoop_foundStart _ 0 hlen hfind, List.drop_zero,
    parseLoop_complete _ hlen habort hcom, hsize, List.take_length, List.drop_length,
    parseLoop_short [] false (by simp [META_OFFSET_DATA])]

/-- Claim C4, counterexample to the unrestricted statement: when the payload
itself contains the start sequence, the parser aborts the frame and yields no
message at all instead of exactly one. -/
theorem c4_counterexample :
    (parseData ParserState.init
        (Message.create START_SEQUENCE TYPE_REQUEST 0).raw).1 = [] := by decide

/-- Claim C4, witness for the amended round trip at a concrete input. -/
theorem c4_witness :
    parseData ParserState.init (Message.create [1, 2] 0 5).raw =
        ([Message.create [1, 2] 0 5], ⟨[], false⟩) ∧
      (Message.create [1, 2] 0 5).rawData = [1, 2] ∧
      (Message.create [1, 2] 0 5).type = 0 ∧
      (Message.create [1, 2] 0 5).id = 5 :=
  c4_amended_thm [1, 2] 0 5 (by decide) (by decide) (by decide)
    (forall_magicAt_of_lt _ _ (by decide))

/-- Whenever the parse loop ends with `pendingMessage` false, at most 10
bytes are retained. -/
theorem parseLoop_retention_bound :
    ∀ n b p, mea b p ≤ n → (parseLoop b p).2.pendingMessage = false →
      (parseLoop b p).2.buffer.length ≤ 10 := by
  intro n
  induction n using Nat.strong_induction_on with
  | _ n IH =>
    intro b p hn
    by_cases hlen : META_OFFSET_DATA ≤ b.length
    · have hlen' : 11 ≤ b.length := by simpa [META_OFFSET_DATA] using hlen
      cases p with
      | false =>
        cases hfind : findStartIdx b with
        | none =>
          rw [parseLoop_noStart b hlen hfind]
          intro _
          simp [List.length_drop]
          omega
        | some i =>
          rw [parseLoop_foundStart b i hlen hfind]
          exact IH (mea (b.drop i) true)
            (by simp [mea, List.length_drop] at *; omega) _ _ (le_refl _)
      | true =>
        cases habort : abortIdx b (readUInt32BE b META_OFFSET_LENGTH + META_OFFSET_DATA) with
        | some j =>
          rw [parseLoop_abort b j hlen habort]
          rcases abortIdx_bound _ _ _ habort with ⟨hj4, _, _, _⟩
          exact IH (mea (b.drop j) true)
            (by simp [mea, List.length_drop] at *; omega) _ _ (le_refl _)
        | none =>
          by_cases hin : b.length < readUInt32BE b META_OFFSET_LENGTH + META_OFFSET_DATA
          · rw [parseLoop_incomplete b hlen habort hin]
            intro hfalse
            simp at hfalse
          · rw [parseLoop_complete b hlen habort (Nat.not_lt.mp hin)]
            exact IH (mea (b.drop (readUInt32BE b META_OFFSET_LENGTH + META_OFFSET_DATA)) false)
              (by simp [mea, META_OFFSET_DATA, List.length_drop] at *; omega) _ _ (le_refl _)
    · rw [parseLoop_short b p (Nat.not_le.mp hlen)]
      intro _
      show b.length ≤ 10
      simp [META_OFFSET_DATA] at hlen
      omega

/-- Claim C10.  When a `parseData` call returns with `pendingMessage` false
the retained buffer holds at most 10 bytes, and a call that starts
not-pending and finds no start sequence in at least a header's worth of data
retains exactly 3 bytes; so garbage without the magic cannot grow the buffer
without bound. -/
theorem c10_thm (s : ParserState) (d : List Nat) :
    ((parseData s d).2.pendingMessage = false → (parseData s d).2.buffer.length ≤ 10) ∧
      (s.pendingMessage = false → META_OFFSET_DATA ≤ (s.buffer ++ d).length →
        findStartIdx (s.buffer ++ d) = none → (parseData s d).2.buffer.length = 3) := by
  constructor
  · exact fun h =>
      parseLoop_retention_bound (mea (s.buffer ++ d) s.pendingMessage) _ _ (le_refl _) h
  · intro hp hlen hfind
    unfold parseData
    rw [hp, parseLoop_noStart _ hlen hfind]
    show ((s.buffer ++ d).drop ((s.buffer ++ d).length - 3)).length = 3
    have : 11 ≤ (s.buffer ++ d).length := by simpa [META_OFFSET_DATA] using hlen
    rw [List.length_drop]
    omega

/-- Claim C10, witness at a concrete garbage input. -/
theorem c10_witness :
    (parseData ParserState.init (List.replicate 12 0)).2.buffer.length ≤ 10 ∧
      (parseData ParserState.init (List.replicate 12 0)).2.buffer.length = 3 :=
  ⟨(c10_thm ParserState.init (List.replicate 12 0)).1 (by decide),
    (c10_thm ParserState.init (List.replicate 12 0)).2 (by decide) (by decide) (by decide)⟩

theorem getD_take (b : List Nat) (n i : Nat) (h : i < n) :
    (b.take n).getD i 0 = b.getD i 0 := by
  induction b generalizing n i with
  | nil => simp
  | cons a rest ih =>
    cases n with
    | zero => omega
    | succ n' =>
      cases i with
      | zero => rfl
      | succ i' =>
        have h1 : ((a :: rest).take (n' + 1)).getD (i' + 1) 0 =
            (rest.take n').getD i' 0 := rfl
        rw [h1, ih n' i' (by omega)]
        rfl

theorem readUInt32BE_take (b : List Nat) (n off : Nat) (h : off + 4 ≤ n) :
    readUInt32BE (b.take n) off = readUInt32BE b off := by
  unfold readUInt32BE
  rw [getD_take _ _ _ (by omega), getD_take _ _ _ (by omega),
    getD_take _ _ _ (by omega), getD_take _ _ _ (by omega)]

/-- A well-formed frame: it begins with the start sequence and its total
size is exactly its length field plus the header size. -/
def WFframe (F : List Nat) : Prop :=
  F.take 4 = START_SEQUENCE ∧
    F.length = readUInt32BE F META_OFFSET_LENGTH + META_OFFSET_DATA

instance (F : List Nat) : Decidable (WFframe F) :=
  inferInstanceAs (Decidable (_ ∧ _))

/-- A stream of frames with garbage before, between and after them: the
first component is the leading garbage, then each entry contributes its
frame followed by its trailing garbage. -/
def interleaved : List Nat → List (List Nat × List Nat) → List Nat
  | g0, [] => g0
  | g0, (F, g) :: rest => g0 ++ (F ++ interleaved g rest)

/-- The positions at which the frames of `interleaved` start. -/
def frameStarts : List Nat → List (List Nat × List Nat) → List Nat
  | _, [] => []
  | g0, (F, g) :: rest =>
    g0.length :: (frameStarts g rest).map (· + (g0.length + F.length))

theorem magicAt_append_right (s t : List Nat) (k : Nat) (h : magicAt t k) :
    magicAt (s ++ t) (s.length + k) := by
  unfold magicAt at *
  have hd : (s ++ t).drop (s.length + k) = t.drop k := by
    rw [← List.drop_drop, List.drop_left]
  rw [hd]
  exact h

theorem parse_interleaved :
    ∀ (ps : List (List Nat × List Nat)) (g0 : List Nat),
      (∀ x ∈ ps, WFframe x.1) →
      (∀ k, magicAt (interleaved g0 ps) k → k ∈ frameStarts g0 ps) →
      (parseLoop (interleaved g0 ps) false).1 =
        ps.map (fun x => (⟨x.1⟩ : Message)) := by
  intro ps
  induction ps with
  | nil =>
    intro g0 _ hocc
    show (parseLoop g0 false).1 = []
    by_cases hlen : META_OFFSET_DATA ≤ g0.length
    · have hnone : findStartIdx g0 = none :=
        (findStartIdx_none_iff g0).mpr fun k hk => by
          have := hocc k hk
          simp [frameStarts] at this
      rw [parseLoop_noStart _ hlen hnone]
    · rw [parseLoop_short _ _ (Nat.not_le.mp hlen)]
  | cons hd rest ih =>
    obtain ⟨F, g⟩ := hd
    intro g0 hwf hocc
    obtain ⟨hFmagic, hFlen⟩ : WFframe F := hwf (F, g) (List.mem_cons_self _ _)
    have hF11 : 11 ≤ F.length := by
      rw [hFlen]
      simp [META_OFFSET_DATA]
    have hS : interleaved g0 ((F, g) :: rest) = g0 ++ (F ++ interleaved g rest) := rfl
    have hdrop : (interleaved g0 ((F, g) :: rest)).drop g0.length =
        F ++ interleaved g rest := by
      rw [hS, List.drop_left]
    have hmagS : magicAt (interleaved g0 ((F, g) :: rest)) g0.length := by
      have : magicAt (F ++ interleaved g rest) 0 := by
        unfold magicAt
        rw [List.drop_zero, List.take_append_of_le_length (by omega)]
        exact hFmagic
      have h0 := magicAt_append_right g0 (F ++ interleaved g rest) 0 this
      rwa [Nat.add_zero, ← hS] at h0
    have hfind : findStartIdx (interleaved g0 ((F, g) :: rest)) = some g0.length := by
      refine (findStartIdx_some_iff _ _).mpr ⟨hmagS, ?_⟩
      intro k hk hmagk
      have hmem := hocc k hmagk
      simp only [frameStarts, List.mem_cons, List.mem_map] at hmem
      rcases hmem with rfl | ⟨k', _, rfl⟩ <;> omega
    have hlenS : META_OFFSET_DATA ≤ (interleaved g0 ((F, g) :: rest)).length := by
      rw [hS]
      simp [List.length_append, META_OFFSET_DATA]
      omega
    rw [parseLoop_foundStart _ g0.length hlenS hfind, hdrop]
    have hlenFt : META_OFFSET_DATA ≤ (F ++ interleaved g rest).length := by
      simp [List.length_append, META_OFFSET_DATA]
      omega
    have hrawF : readUInt32BE (F ++ interleaved g rest) META_OFFSET_LENGTH +
        META_OFFSET_DATA = F.length := by
      rw [readUInt32BE_append F _ _ (by simp [META_OFFSET_LENGTH]; omega), ← hFlen]
    have hoccFt : ∀ k, magicAt (F ++ interleaved g rest) k →
        k = 0 ∨ F.length ≤ k := by
      intro k hmagk
      have hmagS' : magicAt (interleaved g0 ((F, g) :: rest)) (g0.length + k) := by
        rw [← hdrop] at hmagk
        rwa [magicAt_drop] at hmagk
      have hmem := hocc _ hmagS'
      simp only [frameStarts, List.mem_cons, List.mem_map] at hmem
      rcases hmem with heq | ⟨k', _, heq⟩ <;> omega
    have habort : abortIdx (F ++ interleaved g rest)
        (readUInt32BE (F ++ interleaved g rest) META_OFFSET_LENGTH +
          META_OFFSET_DATA) = none := by
      rw [abortIdx_none_iff]
      intro k hk4 hkr hmagk
      rcases hoccFt k hmagk with rfl | hge <;> omega
    have hcom : readUInt32BE (F ++ interleaved g rest) META_OFFSET_LENGTH +
        META_OFFSET_DATA ≤ (F ++ interleaved g rest).length := by
      rw [hrawF]
      simp [List.length_append]
    rw [parseLoop_complete _ hlenFt habort hcom, hrawF, List.take_left, List.drop_left]
    show (⟨F⟩ : Message) :: (parseLoop (interleaved g rest) false).1 = _
    rw [ih g (fun x hx => hwf x (List.mem_cons_of_mem _ hx)) ?_]
    · rfl
    · intro k hmagk
      have h1 : magicAt (F ++ interleaved g rest) (F.length + k) :=
        magicAt_append_right F _ k hmagk
      have h2 : magicAt (interleaved g0 ((F, g) :: rest)) (g0.length + (F.length + k)) := by
        rw [← hdrop] at h1
        rwa [magicAt_drop] at h1
      have hmem := hocc _ h2
      simp only [frameStarts, List.mem_cons, List.mem_map] at hmem
      rcases hmem with heq | ⟨k', hk', heq⟩
      · omega
      · have : k' = k := by omega
        subst this
        exact hk'

/-- Claim C6, amended.  Feeding a stream of well-formed frames with garbage
before, between and after them to a fresh parser yields exactly the frames'
Messages in order — provided the start sequence occurs in the combined
stream only at the frame start positions (garbage or frame junctions that
fabricate an extra start sequence can abort a frame: see the
counterexample). -/
theorem c6_amended_thm (g0 : List Nat) (ps : List (List Nat × List Nat))
    (hwf : ∀ x ∈ ps, WFframe x.1)
    (hocc : ∀ k, magicAt (interleaved g0 ps) k → k ∈ frameStarts g0 ps) :
    (parseData ParserState.init (interleaved g0 ps)).1 =
      ps.map (fun x => (⟨x.1⟩ : Message)) := by
  unfold parseData ParserState.init
  rw [List.nil_append]
  exact parse_interleaved ps g0 hwf hocc

/-- Claim C6, counterexample to the unrestricted statement: a single
well-formed frame whose payload ends in the first magic byte, followed by
3 garbage bytes completing a start sequence across the frame boundary,
yields no Message at all instead of the frame's Message. -/
theorem c6_counterexample :
    WFframe (Message.create [0xf0] TYPE_REQUEST 0).raw ∧
      (parseData ParserState.init
          ((Message.create [0xf0] TYPE_REQUEST 0).raw ++ [0x00, 0x00, 0x0f])).1 = [] := by
  decide

/-- Claim C6, witness for the amended statement at a concrete input: 4
garbage bytes, one frame, 4 garbage bytes. -/
theorem c6_witness :
    (parseData ParserState.init
        (interleaved [0x00, 0xcc, 0x07, 0xc9]
          [((Message.create [1] TYPE_REQUEST 2).raw, [0x00, 0xcc, 0x07, 0xc9])])).1 =
      [⟨(Message.create [1] TYPE_REQUEST 2).raw⟩] :=
  c6_amended_thm [0x00, 0xcc, 0x07, 0xc9]
    [((Message.create [1] TYPE_REQUEST 2).raw, [0x00, 0xcc, 0x07, 0xc9])]
    (by decide) (forall_magicAt_of_lt _ _ (by decide))

/-- Claim C8, amended.  A strict prefix (of at least header size) of one
valid frame followed by a complete valid frame parses to exactly the second
frame's Message — provided the start sequence occurs in the stream only at
offset 0 and at the second frame's start (an extra occurrence inside the
partial frame's payload can release a further Message: see the
counterexample). -/
theorem c8_amended_thm (F1 F2 : List Nat) (k : Nat)
    (hwf1 : WFframe F1) (hwf2 : WFframe F2)
    (hk11 : 11 ≤ k) (hklt : k < F1.length)
    (hocc : ∀ j, magicAt (F1.take k ++ F2) j → j = 0 ∨ j = k) :
    (parseData ParserState.init (F1.take k ++ F2)).1 = [⟨F2⟩] := by
  obtain ⟨hm1, hl1⟩ := hwf1
  obtain ⟨hm2, hl2⟩ := hwf2
  have hF2_11 : 11 ≤ F2.length := by
    rw [hl2]
    simp [META_OFFSET_DATA]
  have htklen : (F1.take k).length = k := by
    rw [List.length_take]
    omega
  have hXlen : (F1.take k ++ F2).length = k + F2.length := by
    rw [List.length_append, htklen]
  have hlenX : META_OFFSET_DATA ≤ (F1.take k ++ F2).length := by
    rw [hXlen]
    simp [META_OFFSET_DATA]
    omega
  have hmagX0 : magicAt (F1.take k ++ F2) 0 := by
    unfold magicAt
    rw [List.drop_zero, List.take_append_of_le_length (by omega),
      List.take_take, Nat.min_eq_left (by omega)]
    exact hm1
  have hfind : findStartIdx (F1.take k ++ F2) = some 0 :=
    (findStartIdx_some_iff _ 0).mpr ⟨hmagX0, fun j hj => absurd hj (Nat.not_lt_zero j)⟩
  have hdropk : (F1.take k ++ F2).drop k = F2 := by
    have hdl := List.drop_left (F1.take k) F2
    rwa [htklen] at hdl
  have hmagXk : magicAt (F1.take k ++ F2) k := by
    unfold magicAt
    rw [hdropk]
    exact hm2
  have hreadX : readUInt32BE (F1.take k ++ F2) META_OFFSET_LENGTH =
      readUInt32BE F1 META_OFFSET_LENGTH := by
    rw [readUInt32BE_append _ _ _ (by simp [META_OFFSET_LENGTH]; omega),
      readUInt32BE_take _ _ _ (by simp [META_OFFSET_LENGTH]; omega)]
  have hrawX : readUInt32BE (F1.take k ++ F2) META_OFFSET_LENGTH + META_OFFSET_DATA =
      F1.length := by
    rw [hreadX, ← hl1]
  have hfrom : findStartIdxFrom (F1.take k ++ F2) 4 = some k := by
    refine (findStartIdxFrom_some_iff _ _ _).mpr ⟨by omega, hmagXk, ?_⟩
    intro j hj4 hjk hmagj
    rcases hocc j hmagj with rfl | rfl <;> omega
  have habort : abortIdx (F1.take k ++ F2)
      (readUInt32BE (F1.take k ++ F2) META_OFFSET_LENGTH + META_OFFSET_DATA) = some k := by
    unfold abortIdx
    rw [hfrom]
    show (if k < readUInt32BE (F1.take k ++ F2) META_OFFSET_LENGTH + META_OFFSET_DATA
        then some k else none) = some k
    rw [hrawX, if_pos hklt]
  have hocc2 : ∀ j, magicAt F2 j → j = 0 := by
    intro j hmagj
    have : magicAt (F1.take k ++ F2) (k + j) := by
      rw [← hdropk] at hmagj
      rwa [magicAt_drop] at hmagj
    rcases hocc _ this with heq | heq <;> omega
  have hlenF2 : META_OFFSET_DATA ≤ F2.length := by
    simp [META_OFFSET_DATA]
    omega
  have hraw2 : readUInt32BE F2 META_OFFSET_LENGTH + META_OFFSET_DATA = F2.length :=
    hl2.symm
  have habort2 : abortIdx F2
      (readUInt32BE F2 META_OFFSET_LENGTH + META_OFFSET_DATA) = none := by
    rw [abortIdx_none_iff]
    intro j hj4 hjr hmagj
    have := hocc2 j hmagj
    omega
  have hcom2 : readUInt32BE F2 META_OFFSET_LENGTH + META_OFFSET_DATA ≤ F2.length := by
    rw [hraw2]
  unfold parseData ParserState.init
  rw [List.nil_append, parseLoop_foundStart _ 0 hlenX hfind, List.drop_zero,
    parseLoop_abort _ k hlenX habort, hdropk,
    parseLoop_complete _ hlenF2 habort2 hcom2, hraw2, List.take_length, List.drop_length,
    parseLoop_short [] false (by simp [META_OFFSET_DATA])]

/-- Claim C8, counterexample to the unrestricted statement: the partial
frame's payload carries a complete embedded frame, which the parser releases
as an extra Message before the complete frame's Message. -/
theorem c8_counterexample :
    WFframe (Message.create ((Message.create [] TYPE_REQUEST 7).raw ++ [0xaa])
        TYPE_REQUEST 3).raw ∧
      WFframe (Message.create [] TYPE_REQUEST 9).raw ∧
      (parseData ParserState.init
          ((Message.create ((Message.create [] TYPE_REQUEST 7).raw ++ [0xaa])
              TYPE_REQUEST 3).raw.take 22 ++
            (Message.create [] TYPE_REQUEST 9).raw)).1 =
        [⟨(Message.create [] TYPE_REQUEST 7).raw⟩,
          ⟨(Message.create [] TYPE_REQUEST 9).raw⟩] ∧
      ([⟨(Message.create [] TYPE_REQUEST 7).raw⟩,
          ⟨(Message.create [] TYPE_REQUEST 9).raw⟩] : List Message) ≠
        [⟨(Message.create [] TYPE_REQUEST 9).raw⟩] := by
  decide

/-- Claim C8, witness for the amended statement at a concrete input. -/
theorem c8_witness :
    (parseData ParserState.init
        ((Message.create [0, 0] TYPE_REQUEST 3).raw.take 11 ++
          (Message.create [] TYPE_REQUEST 9).raw)).1 =
      [⟨(Message.create [] TYPE_REQUEST 9).raw⟩] :=
  c8_amended_thm (Message.create [0, 0] TYPE_REQUEST 3).raw
    (Message.create [] TYPE_REQUEST 9).raw 11
    (by decide) (by decide) (by decide) (by decide)
    (forall_magicAt_of_lt _ _ (by decide))

/-- Chunk-boundary safety: no start-sequence occurrence begins inside the
last 3 bytes of the candidate frame headed by an earlier occurrence (there
the parser's abort scan and its completeness check race, and delivery
boundaries decide which wins). -/
def chunkSafe (s : List Nat) : Prop :=
  ∀ p q, magicAt s p → magicAt s q → p < q →
    q < p + readUInt32BE s (p + 4) + 8 ∨ p + readUInt32BE s (p + 4) + 11 ≤ q

theorem chunkSafe_drop (s : List Nat) (n : Nat) (h : chunkSafe s) :
    chunkSafe (s.drop n) := by
  intro p q hp hq hpq
  rw [magicAt_drop] at hp hq
  have hw := h (n + p) (n + q) hp hq (by omega)
  rw [readUInt32BE_drop, show n + (p + 4) = n + p + 4 by omega]
  omega

theorem chunkSafe_of_bounded (s : List Nat)
    (h : ∀ p, p < s.length → ∀ q, q < s.length →
      (magicAt s p ∧ magicAt s q ∧ p < q) →
      q < p + readUInt32BE s (p + 4) + 8 ∨ p + readUInt32BE s (p + 4) + 11 ≤ q) :
    chunkSafe s := fun p q hp hq hpq =>
  h p (by have := magicAt_le s p hp; omega) q
    (by have := magicAt_le s q hq; omega) ⟨hp, hq, hpq⟩

theorem findStartIdx_drop_some (s : List Nat) (k m : Nat)
    (hocc : ∀ q, magicAt s q → k ≤ q) (h : findStartIdx s = some m) :
    findStartIdx (s.drop k) = some (m - k) := by
  rcases (findStartIdx_some_iff s m).mp h with ⟨hmag, hmin⟩
  have hkm : k ≤ m := hocc m hmag
  refine (findStartIdx_some_iff _ _).mpr ⟨?_, ?_⟩
  · rw [magicAt_drop, show k + (m - k) = m by omega]
    exact hmag
  · intro j hj hmagj
    rw [magicAt_drop] at hmagj
    exact hmin (k + j) (by omega) hmagj

theorem findStartIdx_drop_none (s : List Nat) (k : Nat) (h : findStartIdx s = none) :
    findStartIdx (s.drop k) = none := by
  rw [findStartIdx_none_iff] at h ⊢
  intro j hmagj
  rw [magicAt_drop] at hmagj
  exact h _ hmagj

/-- Dropping a junk prefix that is known to contain no start-sequence
occurrence (and keeping at least the last 3 bytes) does not change the
messages the loop produces. -/
theorem parseLoop_dropJunk (s : List Nat) (k : Nat)
    (hocc : ∀ q, magicAt s q → k ≤ q) (hk : k + 3 ≤ s.length) :
    (parseLoop (s.drop k) false).1 = (parseLoop s false).1 := by
  by_cases hbig : META_OFFSET_DATA ≤ s.length
  · cases hfind : findStartIdx s with
    | some m =>
      have hmagm := ((findStartIdx_some_iff s m).mp hfind).1
      have hm4 := magicAt_le s m hmagm
      have hkm : k ≤ m := hocc m hmagm
      have hfind' := findStartIdx_drop_some s k m hocc hfind
      rw [parseLoop_foundStart s m hbig hfind]
      by_cases hsmall : META_OFFSET_DATA ≤ (s.drop k).length
      · rw [parseLoop_foundStart _ (m - k) hsmall hfind', List.drop_drop,
          show k + (m - k) = m by omega]
      · have hsm := Nat.not_le.mp hsmall
        rw [List.length_drop] at hsm
        rw [parseLoop_short _ _ (Nat.not_le.mp hsmall)]
        have hshort : (s.drop m).length < META_OFFSET_DATA := by
          rw [List.length_drop]
          omega
        rw [parseLoop_short _ _ hshort]
    | none =>
      have hfind' := findStartIdx_drop_none s k hfind
      rw [parseLoop_noStart s hbig hfind]
      by_cases hsmall : META_OFFSET_DATA ≤ (s.drop k).length
      · rw [parseLoop_noStart _ hsmall hfind']
      · rw [parseLoop_short _ _ (Nat.not_le.mp hsmall)]
  · have hsmall : (s.drop k).length < META_OFFSET_DATA := by
      have := Nat.not_le.mp hbig
      rw [List.length_drop]
      omega
    rw [parseLoop_short _ _ hsmall, parseLoop_short _ _ (Nat.not_le.mp hbig)]

/-- Structural facts about the state the parse loop leaves behind: the
retained buffer is a suffix of the input, a pending state retains a
start-sequence prefix, and re-running the loop on the final state changes
nothing (the state is quiescent). -/
theorem parseLoop_state_props : ∀ n b p, mea b p ≤ n →
    (∃ t, t ≤ b.length ∧ (parseLoop b p).2.buffer = b.drop t) ∧
      ((p = true → b.take 4 = START_SEQUENCE) →
        (parseLoop b p).2.pendingMessage = true →
        (parseLoop b p).2.buffer.take 4 = START_SEQUENCE) ∧
      parseLoop (parseLoop b p).2.buffer (parseLoop b p).2.pendingMessage =
        ([], (parseLoop b p).2) := by
  intro n
  induction n using Nat.strong_induction_on with
  | _ n IH =>
    intro b p hn
    by_cases hbig : META_OFFSET_DATA ≤ b.length
    · cases p with
      | false =>
        cases hfind : findStartIdx b with
        | none =>
          rw [parseLoop_noStart b hbig hfind]
          refine ⟨⟨b.length - 3, by omega, rfl⟩, ?_, ?_⟩
          · intro _ hcon
            simp at hcon
          · apply parseLoop_short
            simp [META_OFFSET_DATA, List.length_drop]
            omega
        | some i =>
          rw [parseLoop_foundStart b i hbig hfind]
          have hmagi := ((findStartIdx_some_iff b i).mp hfind).1
          have hi4 := magicAt_le b i hmagi
          have hmb : mea b false = 2 * b.length + 1 := by simp [mea]
          have hml : mea (b.drop i) true = 2 * (b.length - i) := by
            simp [mea, List.length_drop]
          have hlt : mea (b.drop i) true < n := by omega
          obtain ⟨⟨t, ht, hbuf⟩, hinv2, hq2⟩ := IH _ hlt (b.drop i) true (le_refl _)
          rw [List.length_drop] at ht
          refine ⟨⟨i + t, by omega, by rw [hbuf, List.drop_drop]⟩, ?_, hq2⟩
          intro _
          exact hinv2 (fun _ => hmagi)
      | true =>
        cases habort : abortIdx b (readUInt32BE b META_OFFSET_LENGTH + META_OFFSET_DATA) with
        | some j =>
          rw [parseLoop_abort b j hbig habort]
          rcases abortIdx_bound _ _ _ habort with ⟨hj4, _, hmagj, _⟩
          have hjb := magicAt_le b j hmagj
          have hmb : mea b true = 2 * b.length := by simp [mea]
          have hml : mea (b.drop j) true = 2 * (b.length - j) := by
            simp [mea, List.length_drop]
          have hbig' : 11 ≤ b.length := by simpa [META_OFFSET_DATA] using hbig
          have hlt : mea (b.drop j) true < n := by omega
          obtain ⟨⟨t, ht, hbuf⟩, hinv2, hq2⟩ := IH _ hlt (b.drop j) true (le_refl _)
          rw [List.length_drop] at ht
          refine ⟨⟨j + t, by omega, by rw [hbuf, List.drop_drop]⟩, ?_, hq2⟩
          intro _
          exact hinv2 (fun _ => hmagj)
        | none =>
          by_cases hin : b.length < readUInt32BE b META_OFFSET_LENGTH + META_OFFSET_DATA
          · rw [parseLoop_incomplete b hbig habort hin]
            exact ⟨⟨0, by omega, (List.drop_zero b).symm⟩,
              fun hinv0 _ => hinv0 rfl, parseLoop_incomplete b hbig habort hin⟩
          · rw [parseLoop_complete b hbig habort (Nat.not_lt.mp hin)]
            have hbig' : 11 ≤ b.length := by simpa [META_OFFSET_DATA] using hbig
            have hR : 11 ≤ readUInt32BE b META_OFFSET_LENGTH + META_OFFSET_DATA := by
              simp [META_OFFSET_DATA]
            have hmb : mea b true = 2 * b.length := by simp [mea]
            have hml : mea (b.drop (readUInt32BE b META_OFFSET_LENGTH + META_OFFSET_DATA)) false =
                2 * (b.length - (readUInt32BE b META_OFFSET_LENGTH + META_OFFSET_DATA)) + 1 := by
              simp [mea, List.length_drop]
            have hlt : mea (b.drop (readUInt32BE b META_OFFSET_LENGTH + META_OFFSET_DATA)) false < n := by
              omega
            obtain ⟨⟨t, ht, hbuf⟩, hinv2, hq2⟩ :=
              IH _ hlt (b.drop (readUInt32BE b META_OFFSET_LENGTH + META_OFFSET_DATA)) false
                (le_refl _)
            rw [List.length_drop] at ht
            refine ⟨⟨readUInt32BE b META_OFFSET_LENGTH + META_OFFSET_DATA + t, by omega,
              by rw [hbuf, List.drop_drop]⟩, ?_, hq2⟩
            intro _
            exact hinv2 (fun hcon => nomatch hcon)
    · rw [parseLoop_short b p (Nat.not_le.mp hbig)]
      exact ⟨⟨0, by omega, (List.drop_zero b).symm⟩, fun hinv0 hp => hinv0 hp,
        parseLoop_short b p (Nat.not_le.mp hbig)⟩

/-- The central append lemma behind chunk-delivery invariance: on a
chunk-boundary-safe stream, parsing `b` and then feeding `d` to the
resulting state produces the same messages as parsing `b ++ d` at once. -/
theorem parseLoop_append_main : ∀ n b p d, mea b p ≤ n →
    (p = true → b.take 4 = START_SEQUENCE) →
    chunkSafe (b ++ d) →
    (parseLoop b p).1 ++
        (parseLoop ((parseLoop b p).2.buffer ++ d)
          (parseLoop b p).2.pendingMessage).1 =
      (parseLoop (b ++ d) p).1 := by
  intro n
  induction n using Nat.strong_induction_on with
  | _ n IH =>
    intro b p d hn hinv hsafe
    by_cases hbig : META_OFFSET_DATA ≤ b.length
    · have hbig' : META_OFFSET_DATA ≤ (b ++ d).length := by
        rw [List.length_append]
        omega
      have hb11 : 11 ≤ b.length := by simpa [META_OFFSET_DATA] using hbig
      cases p with
      | false =>
        cases hfind : findStartIdx b with
        | none =>
          rw [parseLoop_noStart b hbig hfind]
          have hocc : ∀ q, magicAt (b ++ d) q → b.length - 3 ≤ q := by
            intro q hq
            by_contra hlt
            push_neg at hlt
            have : magicAt b q := magicAt_append_inv b d q hq (by omega)
            exact ((findStartIdx_none_iff b).mp hfind q) this
          have hdeq : b.drop (b.length - 3) ++ d = (b ++ d).drop (b.length - 3) :=
            (List.drop_append_of_le_length (by omega)).symm
          show [] ++ (parseLoop (b.drop (b.length - 3) ++ d) false).1 =
            (parseLoop (b ++ d) false).1
          rw [List.nil_append, hdeq]
          exact parseLoop_dropJunk (b ++ d) (b.length - 3) hocc
            (by rw [List.length_append]; omega)
        | some i =>
          have hmagi := ((findStartIdx_some_iff b i).mp hfind).1
          have hi4 := magicAt_le b i hmagi
          have hfind' : findStartIdx (b ++ d) = some i := findStartIdx_append b d i hfind
          rw [parseLoop_foundStart b i hbig hfind,
            parseLoop_foundStart _ i hbig' hfind',
            List.drop_append_of_le_length (by omega : i ≤ b.length)]
          have hmb : mea b false = 2 * b.length + 1 := by simp [mea]
          have hml : mea (b.drop i) true = 2 * (b.length - i) := by
            simp [mea, List.length_drop]
          have hsafe' : chunkSafe (b.drop i ++ d) := by
            have h1 := chunkSafe_drop (b ++ d) i hsafe
            rwa [List.drop_append_of_le_length (by omega : i ≤ b.length)] at h1
          exact IH (mea (b.drop i) true) (by omega) (b.drop i) true d (le_refl _)
            (fun _ => hmagi) hsafe'
      | true =>
        have hmagb : b.take 4 = START_SEQUENCE := hinv rfl
        have hread : readUInt32BE (b ++ d) META_OFFSET_LENGTH =
            readUInt32BE b META_OFFSET_LENGTH :=
          readUInt32BE_append b d _ (by simp [META_OFFSET_LENGTH]; omega)
        cases habort : abortIdx b (readUInt32BE b META_OFFSET_LENGTH + META_OFFSET_DATA) with
        | some j =>
          rcases abortIdx_bound _ _ _ habort with ⟨hj4, hjr, hmagj, hjmin⟩
          have hj4b : j + 4 ≤ b.length := magicAt_le b j hmagj
          have hfrom : findStartIdxFrom (b ++ d) 4 = some j := by
            refine (findStartIdxFrom_some_iff _ _ _).mpr
              ⟨hj4, magicAt_append_left b d j hmagj, ?_⟩
            intro q hq4 hqj hmagq
            exact hjmin q hq4 hqj (magicAt_append_inv b d q hmagq (by omega))
          have habort' : abortIdx (b ++ d)
              (readUInt32BE (b ++ d) META_OFFSET_LENGTH + META_OFFSET_DATA) = some j := by
            unfold abortIdx
            rw [hfrom]
            show (if j < readUInt32BE (b ++ d) META_OFFSET_LENGTH + META_OFFSET_DATA
                then some j else none) = some j
            rw [hread, if_pos hjr]
          rw [parseLoop_abort b j hbig habort, parseLoop_abort _ j hbig' habort',
            List.drop_append_of_le_length (by omega : j ≤ b.length)]
          have hmb : mea b true = 2 * b.length := by simp [mea]
          have hml : mea (b.drop j) true = 2 * (b.length - j) := by
            simp [mea, List.length_drop]
          have hsafe' : chunkSafe (b.drop j ++ d) := by
            have h1 := chunkSafe_drop (b ++ d) j hsafe
            rwa [List.drop_append_of_le_length (by omega : j ≤ b.length)] at h1
          exact IH (mea (b.drop j) true) (by omega) (b.drop j) true d (le_refl _)
            (fun _ => hmagj) hsafe'
        | none =>
          by_cases hin : b.length < readUInt32BE b META_OFFSET_LENGTH + META_OFFSET_DATA
          · rw [parseLoop_incomplete b hbig habort hin]
            exact List.nil_append _
          · have hcom : readUInt32BE b META_OFFSET_LENGTH + META_OFFSET_DATA ≤ b.length :=
              Nat.not_lt.mp hin
            have habort' : abortIdx (b ++ d)
                (readUInt32BE (b ++ d) META_OFFSET_LENGTH + META_OFFSET_DATA) = none := by
              rw [abortIdx_none_iff]
              intro q hq4 hqr hmagq
              rw [hread] at hqr
              by_cases hqin : q + 4 ≤ b.length
              · exact ((abortIdx_none_iff b _).mp habort) q hq4 (by omega)
                  (magicAt_append_inv b d q hmagq hqin)
              · have hmag0 : magicAt (b ++ d) 0 := by
                  unfold magicAt
                  rw [List.drop_zero, List.take_append_of_le_length (by omega)]
                  exact hmagb
                have hwin := hsafe 0 q hmag0 hmagq (by omega)
                rw [show (0 : Nat) + 4 = META_OFFSET_LENGTH from rfl, hread] at hwin
                have hq3 : b.length - 3 ≤ q := by omega
                simp [META_OFFSET_DATA] at hqr hcom
                omega
            have hcom' : readUInt32BE (b ++ d) META_OFFSET_LENGTH + META_OFFSET_DATA ≤
                (b ++ d).length := by
              rw [hread, List.length_append]
              omega
            rw [parseLoop_complete b hbig habort hcom,
              parseLoop_complete _ hbig' habort' hcom', hread,
              List.take_append_of_le_length hcom,
              List.drop_append_of_le_length hcom]
            have hR : 11 ≤ readUInt32BE b META_OFFSET_LENGTH + META_OFFSET_DATA := by
              simp [META_OFFSET_DATA]
            have hmb : mea b true = 2 * b.length := by simp [mea]
            have hml : mea (b.drop (readUInt32BE b META_OFFSET_LENGTH + META_OFFSET_DATA)) false =
                2 * (b.length - (readUInt32BE b META_OFFSET_LENGTH + META_OFFSET_DATA)) + 1 := by
              simp [mea, List.length_drop]
            have hsafe' : chunkSafe
                (b.drop (readUInt32BE b META_OFFSET_LENGTH + META_OFFSET_DATA) ++ d) := by
              have h1 := chunkSafe_drop (b ++ d)
                (readUInt32BE b META_OFFSET_LENGTH + META_OFFSET_DATA) hsafe
              rwa [List.drop_append_of_le_length hcom] at h1
            have hIH := IH
              (mea (b.drop (readUInt32BE b META_OFFSET_LENGTH + META_OFFSET_DATA)) false)
              (by omega)
              (b.drop (readUInt32BE b META_OFFSET_LENGTH + META_OFFSET_DATA)) false d
              (le_refl _) (fun hcon => nomatch hcon) hsafe'
            show ((⟨b.take (readUInt32BE b META_OFFSET_LENGTH + META_OFFSET_DATA)⟩ : Message) ::
                (parseLoop (b.drop (readUInt32BE b META_OFFSET_LENGTH + META_OFFSET_DATA)) false).1) ++
                (parseLoop
                  ((parseLoop (b.drop (readUInt32BE b META_OFFSET_LENGTH + META_OFFSET_DATA)) false).2.buffer ++ d)
                  (parseLoop (b.drop (readUInt32BE b META_OFFSET_LENGTH + META_OFFSET_DATA)) false).2.pendingMessage).1 =
              (⟨b.take (readUInt32BE b META_OFFSET_LENGTH + META_OFFSET_DATA)⟩ : Message) ::
                (parseLoop (b.drop (readUInt32BE b META_OFFSET_LENGTH + META_OFFSET_DATA) ++ d) false).1
            rw [List.cons_append, hIH]
    · rw [parseLoop_short b p (Nat.not_le.mp hbig)]
      exact List.nil_append _

/-- Running the chunks of a partition one call at a time produces the same
messages as one call on the concatenation, from any quiescent safe state. -/
theorem runChunks_eq : ∀ (cs : List (List Nat)) (s : ParserState),
    parseLoop s.buffer s.pendingMessage = ([], s) →
    (s.pendingMessage = true → s.buffer.take 4 = START_SEQUENCE) →
    chunkSafe (s.buffer ++ cs.join) →
    (runChunks s cs).1 = (parseData s cs.join).1 := by
  intro cs
  induction cs with
  | nil =>
    intro s hq _ _
    show ([] : List Message) = (parseData s ([] : List (List Nat)).join).1
    unfold parseData
    rw [show ([] : List (List Nat)).join = [] from rfl, List.append_nil, hq]
  | cons c cs ih =>
    intro s hq hinv hsafe
    have hjoin : ((c :: cs : List (List Nat))).join = c ++ cs.join := rfl
    obtain ⟨⟨t, ht, hbuf⟩, hinvp, hquies⟩ :=
      parseLoop_state_props (mea (s.buffer ++ c) s.pendingMessage)
        (s.buffer ++ c) s.pendingMessage (le_refl _)
    have hinv1 : s.pendingMessage = true → (s.buffer ++ c).take 4 = START_SEQUENCE := by
      intro hp
      have hm := hinv hp
      have h4 : 4 ≤ s.buffer.length := by
        have hlt := congrArg List.length hm
        simp [START_SEQUENCE, writeUInt32BE, List.length_take] at hlt
        omega
      rw [List.take_append_of_le_length (by omega)]
      exact hm
    have hsafe1 : chunkSafe ((s.buffer ++ c) ++ cs.join) := by
      rw [List.append_assoc]
      rw [hjoin] at hsafe
      exact hsafe
    have hsafe2 : chunkSafe
        ((parseLoop (s.buffer ++ c) s.pendingMessage).2.buffer ++ cs.join) := by
      rw [hbuf, ← List.drop_append_of_le_length ht]
      exact chunkSafe_drop _ t hsafe1
    have hih := ih (parseLoop (s.buffer ++ c) s.pendingMessage).2 hquies
      (hinvp hinv1) hsafe2
    have hM := parseLoop_append_main (mea (s.buffer ++ c) s.pendingMessage)
      (s.buffer ++ c) s.pendingMessage cs.join (le_refl _) hinv1 hsafe1
    show (parseLoop (s.buffer ++ c) s.pendingMessage).1 ++
        (runChunks (parseLoop (s.buffer ++ c) s.pendingMessage).2 cs).1 =
      (parseLoop (s.buffer ++ ((c :: cs : List (List Nat))).join) s.pendingMessage).1
    calc (parseLoop (s.buffer ++ c) s.pendingMessage).1 ++
          (runChunks (parseLoop (s.buffer ++ c) s.pendingMessage).2 cs).1
        = (parseLoop (s.buffer ++ c) s.pendingMessage).1 ++
            (parseData (parseLoop (s.buffer ++ c) s.pendingMessage).2 cs.join).1 := by
          rw [hih]
      _ = (parseLoop ((s.buffer ++ c) ++ cs.join) s.pendingMessage).1 := hM
      _ = (parseLoop (s.buffer ++ ((c :: cs : List (List Nat))).join) s.pendingMessage).1 := by
          rw [hjoin, List.append_assoc]

/-- Claim C5, amended.  For every byte sequence X and every partition of X
into consecutive non-empty chunks, feeding the chunks one `parseData` call
at a time yields the same messages as a single call with all of X —
provided X is chunk-boundary safe: no start-sequence occurrence in X begins
inside the last 3 bytes of the candidate frame headed by an earlier
occurrence (otherwise the single call's abort scan can kill a frame that a
chunked run has already emitted: see the counterexample). -/
theorem c5_amended_thm (X : List Nat) (cs : List (List Nat))
    (hjoin : cs.join = X) (hne : ∀ c ∈ cs, c ≠ []) (hsafe : chunkSafe X) :
    (runChunks ParserState.init cs).1 = (parseData ParserState.init X).1 := by
  subst hjoin
  exact runChunks_eq cs ParserState.init
    (parseLoop_short [] false (by simp [META_OFFSET_DATA]))
    (fun hcon => nomatch hcon)
    (by rw [show ParserState.init.buffer ++ cs.join = cs.join from List.nil_append _]
        exact hsafe)

/-- Claim C5, counterexample to the unrestricted statement: one frame whose
payload ends in the first magic byte, delivered frame-aligned and then the
remaining 3 bytes, yields the frame; delivered as one concatenated buffer it
yields nothing, because the completed frame is aborted by the start sequence
that begins in its last byte. -/
theorem c5_counterexample :
    (runChunks ParserState.init
        [(Message.create [0xf0] TYPE_REQUEST 0).raw, [0x00, 0x00, 0x0f]]).1 =
        [⟨(Message.create [0xf0] TYPE_REQUEST 0).raw⟩] ∧
      (parseData ParserState.init
          ((Message.create [0xf0] TYPE_REQUEST 0).raw ++ [0x00, 0x00, 0x0f])).1 = [] ∧
      ([(Message.create [0xf0] TYPE_REQUEST 0).raw,
          ([0x00, 0x00, 0x0f] : List Nat)] : List (List Nat)).join =
        (Message.create [0xf0] TYPE_REQUEST 0).raw ++ [0x00, 0x00, 0x0f] ∧
      ([⟨(Message.create [0xf0] TYPE_REQUEST 0).raw⟩] : List Message) ≠ [] := by
  decide

/-- Claim C5, witness for the amended statement: one frame split inside its
header parses identically to the unsplit frame. -/
theorem c5_witness :
    (runChunks ParserState.init
        [(Message.create [7] TYPE_REQUEST 1).raw.take 6,
          (Message.create [7] TYPE_REQUEST 1).raw.drop 6]).1 =
      (parseData ParserState.init (Message.create [7] TYPE_REQUEST 1).raw).1 :=
  c5_amended_thm (Message.create [7] TYPE_REQUEST 1).raw
    [(Message.create [7] TYPE_REQUEST 1).raw.take 6,
      (Message.create [7] TYPE_REQUEST 1).raw.drop 6]
    (by decide) (by decide) (chunkSafe_of_bounded _ (by decide))

/-- Modelled from the spec: the dedicated `TimeoutError` class is imported
from `src/errors/TimeoutError`, a file that is not part of the provided
sources; per spec §7 it is a distinguished error kind carrying a message.
`fromBytes` models a generic JavaScript `Error` whose message is payload
text (text is modelled by its bytes throughout this development). -/
inductive JsError where
  | timeoutError (message : String)
  | fromBytes (message : List Nat)
deriving DecidableEq

/-- A delivery on a transaction's one-shot completion handle (the promise
`resolve`/`reject` pair captured in the `Transaction` record). -/
inductive Signal where
  | resolved (msg : Option Message)
  | rejected (e : JsError)
deriving DecidableEq

/-- The per-id entry stored by the holder (`Transaction` of `types.ts`):
its id and its `timeout` timer, modelled by an armed flag plus the duration
the timer was set with.  The `resolve`/`reject` callbacks are modelled by
the signal log of the holder. -/
structure Transaction where
  id : Nat
  timerActive : Bool
  timerDuration : Nat
deriving DecidableEq

/-- State of a `TransactionHolder` (`dist/components/transactionHolder.js`):
the id-keyed map `_transactions` (a JavaScript object slot per id; a slot
set to `undefined` is `none`), plus an observation log of every signal
delivered to a completion handle.  Each log entry records the transaction
id, the signal, and whether the transaction was still present in the map at
the moment its completion was invoked. -/
structure TransactionHolder where
  transactions : Nat → Option Transaction
  log : List (Nat × Signal × Bool)

/-- `TransactionHolder.TIMEOUT = 5000`. -/
def TransactionHolder.TIMEOUT : Nat := 5000

/-- A freshly constructed holder: `this._transactions = {}`. -/
def TransactionHolder.init : TransactionHolder := ⟨fun _ => none, []⟩

namespace TransactionHolder

/-- `get(id)`. -/
def get (s : TransactionHolder) (id : Nat) : Option Transaction :=
  s.transactions id

/-- Delivery of a signal to a completion handle; the third component
records whether the transaction was still in the map when invoked. -/
def signal (s : TransactionHolder) (id : Nat) (sig : Signal) : TransactionHolder :=
  { s with log := s.log ++ [(id, sig, (s.transactions id).isSome)] }

/-- `add(transaction, timeout = TransactionHolder.TIMEOUT)`: start the
transaction timeout and insert the transaction by id. -/
def add (s : TransactionHolder) (id : Nat) (timeout : Option Nat) : TransactionHolder :=
  { s with transactions := fun j =>
      if j = id then some ⟨id, true, timeout.getD TIMEOUT⟩ else s.transactions j }

/-- `remove(id)`: clear any running timeout (`clearTimeout`), set the slot
to `undefined`, and return the previous entry. -/
def remove (s : TransactionHolder) (id : Nat) : TransactionHolder × Option Transaction :=
  ({ s with transactions := fun j => if j = id then none else s.transactions j },
    s.transactions id)

/-- `resolve(id, msg)`: `remove` first, and fulfill the completion only if
a transaction was present. -/
def resolve (s : TransactionHolder) (id : Nat) (msg : Option Message) : TransactionHolder :=
  let r := s.remove id
  match r.2 with
  | some _ => r.1.signal id (.resolved msg)
  | none => r.1

/-- `reject(id, error)`: `remove` first, and fail the completion only if a
transaction was present. -/
def reject (s : TransactionHolder) (id : Nat) (e : JsError) : TransactionHolder :=
  let r := s.remove id
  match r.2 with
  | some _ => r.1.signal id (.rejected e)
  | none => r.1

/-- The `setTimeout` callback armed by `add`: if the timer has not been
cleared it fires once and calls `transaction.reject(new
TimeoutError('timeout reached'))` directly on the completion handle — the
map is not touched. -/
def timerFire (s : TransactionHolder) (id : Nat) : TransactionHolder :=
  match s.transactions id with
  | some t =>
    if t.timerActive then
      ({ s with transactions := fun j =>
          if j = id then some { t with timerActive := false } else s.transactions j }).signal
        id (.rejected (.timeoutError "timeout reached"))
    else s
  | none => s

end TransactionHolder

/-- An event applied to the holder from the engine or from a timer. -/
inductive HolderEvent where
  | add (id : Nat) (timeout : Option Nat)
  | remove (id : Nat)
  | resolve (id : Nat) (msg : Option Message)
  | reject (id : Nat) (e : JsError)
  | timerFire (id : Nat)
deriving DecidableEq

/-- The transaction id an event concerns. -/
def HolderEvent.targets : HolderEvent → Nat
  | .add i _ => i
  | .remove i => i
  | .resolve i _ => i
  | .reject i _ => i
  | .timerFire i => i

/-- One event applied to the holder. -/
def execEvent (s : TransactionHolder) : HolderEvent → TransactionHolder
  | .add i t => s.add i t
  | .remove i => (s.remove i).1
  | .resolve i m => s.resolve i m
  | .reject i e => s.reject i e
  | .timerFire i => s.timerFire i

/-- A sequence of events applied to the holder. -/
def execTrace (s : TransactionHolder) : List HolderEvent → TransactionHolder
  | [] => s
  | e :: evs => execTrace (execEvent s e) evs

/-- The number of signals delivered so far for a given id. -/
def signalCount (idv : Nat) (s : TransactionHolder) : Nat :=
  (s.log.filter (fun x => x.1 == idv)).length

/-- The transaction registration done by `send(msg, timeout)`:
`this._transactions.add({ id: msg.id, resolve, reject }, timeout)`. -/
def sendRegister (s : TransactionHolder) (msg : Message) (timeout : Option Nat) :
    TransactionHolder :=
  s.add msg.id timeout

/-- The success continuation of `send`'s queued write:
`if (msg.type === Message.TYPE.REPLY) this._transactions.resolve(msg.id)`
— note `resolve` is called with the `msg` argument omitted, so the
completion is fulfilled with `undefined`. -/
def sendWriteSuccess (s : TransactionHolder) (msg : Message) : TransactionHolder :=
  if msg.type = TYPE_REPLY then s.resolve msg.id none else s

/-- The registration performed by `ping()`:
`send(Message.create('', Message.TYPE.PING), 500)`. -/
def pingRegister (s : TransactionHolder) (id : Nat) : TransactionHolder :=
  sendRegister s (Message.create [] TYPE_PING id) (some 500)

/-- The outbound message built by `sendReply(data, id)`:
`Message.create(data, Message.TYPE.REPLY, id)`. -/
def sendReplyMessage (data : List Nat) (id : Nat) : Message :=
  Message.create data TYPE_REPLY id

/-- Outcome of the user message handler on a REQUEST (`await
this._handlers.message(msg)`): a result (possibly `undefined`, mapped to
`''` by `result || ''`), or a thrown error. -/
inductive HandlerRes where
  | ok (result : Option (List Nat))
  | thrown (e : JsError)

/-- An action the engine's inbound dispatch performs.  Outbound sends are
recorded as actions (their own transaction lifecycle is the separate
`sendRegister`/`sendWriteSuccess` model); `resolveTr`/`rejectTr` act on the
holder. -/
inductive EngineAction where
  | sendReply (data : List Nat) (id : Nat)
  | sendErrorReply (e : JsError) (id : Nat)
  | resolveTr (id : Nat) (msg : Option Message)
  | rejectTr (id : Nat) (e : JsError)

/-- `_handleMessage(msg)` of `dist/serialIO.js`: the switch over
`msg.type`, returning the actions performed (PING, REQUEST, REPLY, ERROR,
and the logged-and-dropped default). -/
def handleMessage (msg : Message) (handler : Option (Message → HandlerRes)) :
    List EngineAction :=
  if msg.type = TYPE_PING then
    [.sendReply [] msg.id]
  else if msg.type = TYPE_REQUEST then
    match handler with
    | none => []
    | some h =>
      match h msg with
      | .ok r => [.sendReply (r.getD []) msg.id]
      | .thrown e => [.sendErrorReply e msg.id]
  else if msg.type = TYPE_REPLY then
    [.resolveTr msg.id (some msg)]
  else if msg.type = TYPE_ERROR then
    [.rejectTr msg.id (.fromBytes msg.data)]
  else []

/-- Effect of one engine action on the transaction holder. -/
def applyAction (s : TransactionHolder) : EngineAction → TransactionHolder
  | .sendReply _ _ => s
  | .sendErrorReply _ _ => s
  | .resolveTr i m => s.resolve i m
  | .rejectTr i e => s.reject i e

/-- Effect of a list of engine actions on the transaction holder. -/
def execActions (s : TransactionHolder) : List EngineAction → TransactionHolder
  | [] => s
  | a :: rest => execActions (applyAction s a) rest

theorem resolve_spec (s : TransactionHolder) (i : Nat) (m : Option Message) :
    (s.resolve i m).transactions = (fun j => if j = i then none else s.transactions j) ∧
      (s.transactions i = none → (s.resolve i m).log = s.log) ∧
      (s.transactions i ≠ none →
        (s.resolve i m).log = s.log ++ [(i, Signal.resolved m, false)]) := by
  unfold TransactionHolder.resolve TransactionHolder.remove TransactionHolder.signal
  cases htr : s.transactions i with
  | none => simp [htr]
  | some t => simp [htr]

theorem reject_spec (s : TransactionHolder) (i : Nat) (e : JsError) :
    (s.reject i e).transactions = (fun j => if j = i then none else s.transactions j) ∧
      (s.transactions i = none → (s.reject i e).log = s.log) ∧
      (s.transactions i ≠ none →
        (s.reject i e).log = s.log ++ [(i, Signal.rejected e, false)]) := by
  unfold TransactionHolder.reject TransactionHolder.remove TransactionHolder.signal
  cases htr : s.transactions i with
  | none => simp [htr]
  | some t => simp [htr]

theorem timerFire_spec (s : TransactionHolder) (i : Nat) (t : Transaction)
    (h : s.transactions i = some t) (hact : t.timerActive = true) :
    (s.timerFire i).log =
        s.log ++ [(i, Signal.rejected (.timeoutError "timeout reached"), true)] ∧
      (s.timerFire i).transactions i = some { t with timerActive := false } := by
  unfold TransactionHolder.timerFire TransactionHolder.signal
  rw [h]
  simp [hact]

theorem timerFire_absent (s : TransactionHolder) (i : Nat)
    (h : s.transactions i = none) : s.timerFire i = s := by
  unfold TransactionHolder.timerFire
  rw [h]

/-- A signal for one id leaves another id's signal count unchanged. -/
theorem signalCount_signal_other (s : TransactionHolder) (i idv : Nat) (sig : Signal)
    (h : i ≠ idv) : signalCount idv (s.signal i sig) = signalCount idv s := by
  unfold signalCount TransactionHolder.signal
  rw [List.filter_append]
  have hbe : (i == idv) = false := by simp [h]
  simp [List.filter, hbe]

theorem signalCount_resolve_other (s : TransactionHolder) (i idv : Nat)
    (m : Option Message) (h : i ≠ idv) :
    signalCount idv (s.resolve i m) = signalCount idv s := by
  unfold TransactionHolder.resolve TransactionHolder.remove
  cases htr : s.transactions i with
  | none => simp [htr, signalCount]
  | some t =>
    simp only [htr]
    exact signalCount_signal_other _ i idv _ h

theorem signalCount_reject_other (s : TransactionHolder) (i idv : Nat)
    (e : JsError) (h : i ≠ idv) :
    signalCount idv (s.reject i e) = signalCount idv s := by
  unfold TransactionHolder.reject TransactionHolder.remove
  cases htr : s.transactions i with
  | none => simp [htr, signalCount]
  | some t =>
    simp only [htr]
    exact signalCount_signal_other _ i idv _ h

theorem signalCount_timerFire_other (s : TransactionHolder) (i idv : Nat)
    (h : i ≠ idv) : signalCount idv (s.timerFire i) = signalCount idv s := by
  unfold TransactionHolder.timerFire
  cases htr : s.transactions i with
  | none => rfl
  | some t =>
    by_cases hact : t.timerActive
    · simp only [htr, if_pos hact]
      exact signalCount_signal_other _ i idv _ h
    · simp [htr, hact]

/-- Events that do not target an id leave that id's map entry unchanged. -/
theorem execEvent_other (s : TransactionHolder) (ev : HolderEvent) (j : Nat)
    (h : ev.targets ≠ j) : (execEvent s ev).transactions j = s.transactions j := by
  cases ev with
  | add i t =>
    have hji : j ≠ i := fun hji => h (by simp [HolderEvent.targets, hji])
    simp [execEvent, TransactionHolder.add, hji]
  | remove i =>
    have hji : j ≠ i := fun hji => h (by simp [HolderEvent.targets, hji])
    simp [execEvent, TransactionHolder.remove, hji]
  | resolve i m =>
    have hji : j ≠ i := fun hji => h (by simp [HolderEvent.targets, hji])
    show (s.resolve i m).transactions j = s.transactions j
    rw [(resolve_spec s i m).1]
    simp [hji]
  | reject i e =>
    have hji : j ≠ i := fun hji => h (by simp [HolderEvent.targets, hji])
    show (s.reject i e).transactions j = s.transactions j
    rw [(reject_spec s i e).1]
    simp [hji]
  | timerFire i =>
    have hji : j ≠ i := fun hji => h (by simp [HolderEvent.targets, hji])
    show (s.timerFire i).transactions j = s.transactions j
    unfold TransactionHolder.timerFire
    cases htr : s.transactions i with
    | none => rfl
    | some t =>
      by_cases hact : t.timerActive
      · simp [hact, TransactionHolder.signal, hji]
      · simp [hact]

theorem execTrace_other (j : Nat) : ∀ (evs : List HolderEvent) (s : TransactionHolder),
    (∀ ev ∈ evs, ev.targets ≠ j) →
    (execTrace s evs).transactions j = s.transactions j := by
  intro evs
  induction evs with
  | nil => intro s _; rfl
  | cons e evs ih =>
    intro s h
    show (execTrace (execEvent s e) evs).transactions j = s.transactions j
    rw [ih (execEvent s e) (fun ev hev => h ev (List.mem_cons_of_mem e hev)),
      execEvent_other s e j (h e (List.mem_cons_self e evs))]

/-- Once an id is absent from the map, a trace that never re-adds it keeps
it absent and delivers no further signal for it. -/
theorem trace_no_readd (idv : Nat) : ∀ (evs : List HolderEvent) (s : TransactionHolder),
    (∀ ev ∈ evs, ∀ t, ev ≠ HolderEvent.add idv t) →
    s.transactions idv = none →
    (execTrace s evs).transactions idv = none ∧
      signalCount idv (execTrace s evs) = signalCount idv s := by
  intro evs
  induction evs with
  | nil => intro s _ h; exact ⟨h, rfl⟩
  | cons e evs ih =>
    intro s hno habs
    have hrest := fun ev hev => hno ev (List.mem_cons_of_mem e hev)
    have hstep : (execEvent s e).transactions idv = none ∧
        signalCount idv (execEvent s e) = signalCount idv s := by
      cases e with
      | add i t =>
        have hii : i ≠ idv := fun hii =>
          hno (.add i t) (List.mem_cons_self _ _) t (by rw [hii])
        constructor
        · rw [execEvent_other s (.add i t) idv (by simpa [HolderEvent.targets] using hii)]
          exact habs
        · rfl
      | remove i =>
        constructor
        · show (if idv = i then none else s.transactions idv) = none
          by_cases hii : idv = i
          · rw [if_pos hii]
          · rw [if_neg hii]; exact habs
        · rfl
      | resolve i m =>
        by_cases hii : i = idv
        · subst hii
          constructor
          · show (s.resolve i m).transactions i = none
            rw [(resolve_spec s i m).1]
            simp
          · show signalCount i (s.resolve i m) = signalCount i s
            rw [signalCount, (resolve_spec s i m).2.1 habs]
            rfl
        · constructor
          · show (s.resolve i m).transactions idv = none
            rw [(resolve_spec s i m).1]
            simp only [if_neg (fun hc : idv = i => hii hc.symm)]
            exact habs
          · exact signalCount_resolve_other s i idv m hii
      | reject i e' =>
        by_cases hii : i = idv
        · subst hii
          constructor
          · show (s.reject i e').transactions i = none
            rw [(reject_spec s i e').1]
            simp
          · show signalCount i (s.reject i e') = signalCount i s
            rw [signalCount, (reject_spec s i e').2.1 habs]
            rfl
        · constructor
          · show (s.reject i e').transactions idv = none
            rw [(reject_spec s i e').1]
            simp only [if_neg (fun hc : idv = i => hii hc.symm)]
            exact habs
          · exact signalCount_reject_other s i idv e' hii
      | timerFire i =>
        by_cases hii : i = idv
        · subst hii
          rw [show execEvent s (.timerFire i) = s.timerFire i from rfl,
            timerFire_absent s i habs]
          exact ⟨habs, rfl⟩
        · constructor
          · rw [execEvent_other s (.timerFire i) idv
              (by simpa [HolderEvent.targets] using hii)]
            exact habs
          · exact signalCount_timerFire_other s i idv hii
    have := ih (execEvent s e) hrest hstep.1
    refine ⟨this.1, ?_⟩
    show signalCount idv (execTrace (execEvent s e) evs) = signalCount idv s
    rw [this.2, hstep.2]

/-- In a trace with no `add` and no timer fire for an id, at most one
signal is ever delivered for that id beyond those already logged. -/
theorem trace_once (idv : Nat) : ∀ (evs : List HolderEvent) (s : TransactionHolder),
    (∀ ev ∈ evs, (∀ t, ev ≠ HolderEvent.add idv t) ∧ ev ≠ HolderEvent.timerFire idv) →
    signalCount idv (execTrace s evs) ≤ signalCount idv s + 1 := by
  intro evs
  induction evs with
  | nil => intro s _; exact Nat.le_add_right _ _
  | cons e evs ih =>
    intro s hno
    have hrest := fun ev hev => hno ev (List.mem_cons_of_mem e hev)
    show signalCount idv (execTrace (execEvent s e) evs) ≤ signalCount idv s + 1
    cases e with
    | add i t =>
      refine le_trans (ih (execEvent s (.add i t)) hrest) ?_
      have : signalCount idv (execEvent s (.add i t)) = signalCount idv s := rfl
      rw [this]
    | remove i =>
      refine le_trans (ih (execEvent s (.remove i)) hrest) ?_
      have : signalCount idv (execEvent s (.remove i)) = signalCount idv s := rfl
      rw [this]
    | resolve i m =>
      by_cases hii : i = idv
      · subst hii
        by_cases habs : s.transactions i = none
        · refine le_trans (ih _ hrest) ?_
          have : signalCount i (execEvent s (.resolve i m)) = signalCount i s := by
            show signalCount i (s.resolve i m) = signalCount i s
            rw [signalCount, (resolve_spec s i m).2.1 habs]
            rfl
          rw [this]
        · have habs' : (s.resolve i m).transactions i = none := by
            rw [(resolve_spec s i m).1]
            simp
          have hcount := (trace_no_readd i evs (s.resolve i m)
            (fun ev hev t => (hno ev (List.mem_cons_of_mem _ hev)).1 t) habs').2
          show signalCount i (execTrace (s.resolve i m) evs) ≤ signalCount i s + 1
          rw [hcount, signalCount, (resolve_spec s i m).2.2 habs, List.filter_append]
          simp [signalCount, List.filter]
      · refine le_trans (ih _ hrest) ?_
        have : signalCount idv (execEvent s (.resolve i m)) = signalCount idv s :=
          signalCount_resolve_other s i idv m hii
        rw [this]
    | reject i e' =>
      by_cases hii : i = idv
      · subst hii
        by_cases habs : s.transactions i = none
        · refine le_trans (ih _ hrest) ?_
          have : signalCount i (execEvent s (.reject i e')) = signalCount i s := by
            show signalCount i (s.reject i e') = signalCount i s
            rw [signalCount, (reject_spec s i e').2.1 habs]
            rfl
          rw [this]
        · have habs' : (s.reject i e').transactions i = none := by
            rw [(reject_spec s i e').1]
            simp
          have hcount := (trace_no_readd i evs (s.reject i e')
            (fun ev hev t => (hno ev (List.mem_cons_of_mem _ hev)).1 t) habs').2
          show signalCount i (execTrace (s.reject i e') evs) ≤ signalCount i s + 1
          rw [hcount, signalCount, (reject_spec s i e').2.2 habs, List.filter_append]
          simp [signalCount, List.filter]
      · refine le_trans (ih _ hrest) ?_
        have : signalCount idv (execEvent s (.reject i e')) = signalCount idv s :=
          signalCount_reject_other s i idv e' hii
        rw [this]
    | timerFire i =>
      have hii : i ≠ idv := fun hii =>
        (hno (.timerFire i) (List.mem_cons_self _ _)).2 (by rw [hii])
      refine le_trans (ih _ hrest) ?_
      have : signalCount idv (execEvent s (.timerFire i)) = signalCount idv s :=
        signalCount_timerFire_other s i idv hii
      rw [this]

/-- Claim C1, counterexample to the statement as written: after `add`, the
timeout timer fires and rejects the completion while the transaction is
still in the id map (the log records `true` for present-at-signal), and a
later `resolve` for the same id then signals the very same completion a
second time. -/
theorem c1_counterexample :
    ((TransactionHolder.init.add 5 none).timerFire 5).log =
        [(5, Signal.rejected (JsError.timeoutError "timeout reached"), true)] ∧
      (((TransactionHolder.init.add 5 none).timerFire 5).resolve 5
          (some ⟨[]⟩)).log.length = 2 := by
  exact ⟨rfl, rfl⟩

/-- Claim C1, amended.  Signals delivered through
`TransactionHolder.resolve` and `TransactionHolder.reject` always happen
after the transaction has been removed from the id map (each such log entry
records `false` for present-at-signal), and those two paths deliver at most
one signal per id over any trace free of re-`add`s and timer fires for that
id.  The timeout timer, by contrast, signals the completion directly
without removing the transaction from the map, so a timer fire followed by
a matching resolve or reject signals the same completion twice (see the
counterexample). -/
theorem c1_amended_thm (s : TransactionHolder) (idv : Nat) (msg : Option Message)
    (e : JsError) :
    (s.transactions idv = none → (s.resolve idv msg).log = s.log) ∧
      (s.transactions idv ≠ none →
        (s.resolve idv msg).log = s.log ++ [(idv, Signal.resolved msg, false)]) ∧
      (s.transactions idv = none → (s.reject idv e).log = s.log) ∧
      (s.transactions idv ≠ none →
        (s.reject idv e).log = s.log ++ [(idv, Signal.rejected e, false)]) ∧
      (s.resolve idv msg).transactions idv = none ∧
      (s.reject idv e).transactions idv = none ∧
      (∀ evs : List HolderEvent,
        (∀ ev ∈ evs, (∀ t, ev ≠ HolderEvent.add idv t) ∧ ev ≠ HolderEvent.timerFire idv) →
        signalCount idv (execTrace s evs) ≤ signalCount idv s + 1) := by
  refine ⟨(resolve_spec s idv msg).2.1, (resolve_spec s idv msg).2.2,
    (reject_spec s idv e).2.1, (reject_spec s idv e).2.2, ?_, ?_,
    fun evs hevs => trace_once idv evs s hevs⟩
  · rw [(resolve_spec s idv msg).1]
    simp
  · rw [(reject_spec s idv e).1]
    simp

/-- Claim C1, witness for the amended statement at concrete inputs. -/
theorem c1_witness :
    ((TransactionHolder.init.add 7 none).resolve 7 none).log =
        (TransactionHolder.init.add 7 none).log ++ [(7, Signal.resolved none, false)] ∧
      ((TransactionHolder.init.add 7 none).resolve 7 none).transactions 7 = none ∧
      signalCount 7 (execTrace (TransactionHolder.init.add 7 none)
          [HolderEvent.resolve 7 none, HolderEvent.reject 7 (JsError.fromBytes [])]) ≤
        signalCount 7 (TransactionHolder.init.add 7 none) + 1 :=
  ⟨(c1_amended_thm (TransactionHolder.init.add 7 none) 7 none
      (JsError.fromBytes [])).2.1 (by decide),
    (c1_amended_thm (TransactionHolder.init.add 7 none) 7 none
      (JsError.fromBytes [])).2.2.2.2.1,
    (c1_amended_thm (TransactionHolder.init.add 7 none) 7 none
      (JsError.fromBytes [])).2.2.2.2.2.2
      [HolderEvent.resolve 7 none, HolderEvent.reject 7 (JsError.fromBytes [])]
      (by
        intro ev hev
        simp only [List.mem_cons, List.not_mem_nil, or_false] at hev
        rcases hev with rfl | rfl <;>
          exact ⟨fun t h => (nomatch h), fun h => nomatch h⟩)⟩

/-- Claim C2, counterexample to the statement as written: after the queued
write of a REPLY message completes, `send`'s continuation calls
`this._transactions.resolve(msg.id)` with no message argument, so the
caller's promise is fulfilled with `undefined` — not with the sent message
itself. -/
theorem c2_counterexample :
    (sendWriteSuccess
        (sendRegister TransactionHolder.init (Message.create [1] TYPE_REPLY 7) none)
        (Message.create [1] TYPE_REPLY 7)).log =
      [(7, Signal.resolved none, false)] ∧
      Signal.resolved (none : Option Message) ≠
        Signal.resolved (some (Message.create [1] TYPE_REPLY 7)) := by
  exact ⟨rfl, by decide⟩

/-- Claim C2, amended.  When a REPLY message's queued write completes
successfully, the caller's promise is fulfilled immediately — by the write
completion itself, with no inbound message or timer involved — but with
`undefined` (no value) rather than with the sent message, and the
transaction is removed from the map in the same step. -/
theorem c2_amended_thm (s : TransactionHolder) (msg : Message)
    (hty : msg.type = TYPE_REPLY) (hreg : s.transactions msg.id ≠ none) :
    (sendWriteSuccess s msg).log = s.log ++ [(msg.id, Signal.resolved none, false)] ∧
      (sendWriteSuccess s msg).transactions msg.id = none := by
  unfold sendWriteSuccess
  rw [if_pos hty]
  refine ⟨(resolve_spec s msg.id none).2.2 hreg, ?_⟩
  rw [(resolve_spec s msg.id none).1]
  simp

/-- Claim C2, witness for the amended statement at a concrete input. -/
theorem c2_witness :
    (sendWriteSuccess
        (sendRegister TransactionHolder.init (Message.create [] TYPE_REPLY 3) none)
        (Message.create [] TYPE_REPLY 3)).log =
        (sendRegister TransactionHolder.init (Message.create [] TYPE_REPLY 3) none).log ++
          [((Message.create [] TYPE_REPLY 3).id, Signal.resolved none, false)] ∧
      (sendWriteSuccess
        (sendRegister TransactionHolder.init (Message.create [] TYPE_REPLY 3) none)
        (Message.create [] TYPE_REPLY 3)).transactions
          (Message.create [] TYPE_REPLY 3).id = none :=
  c2_amended_thm _ _ (by decide) (by decide)

/-- Claim C3.  An inbound PING makes `_handleMessage` send exactly one
reply: `sendReply('', msg.id)`, i.e. a REPLY-typed message with empty
payload whose id is the ping's id (ids fit 16 bits on the wire). -/
theorem c3_thm (msg : Message) (handler : Option (Message → HandlerRes))
    (hty : msg.type = TYPE_PING) (hid : msg.id < 65536) :
    handleMessage msg handler = [EngineAction.sendReply [] msg.id] ∧
      (sendReplyMessage [] msg.id).rawData = [] ∧
      (sendReplyMessage [] msg.id).type = TYPE_REPLY ∧
      (sendReplyMessage [] msg.id).id = msg.id := by
  refine ⟨?_, create_rawData _ _ _, create_type _ _ _ (by decide), create_id _ _ _ hid⟩
  unfold handleMessage
  rw [if_pos hty]

/-- Claim C3, witness at a concrete PING message. -/
theorem c3_witness :
    handleMessage (Message.create [9, 9] TYPE_PING 3) none =
        [EngineAction.sendReply [] (Message.create [9, 9] TYPE_PING 3).id] ∧
      (sendReplyMessage [] (Message.create [9, 9] TYPE_PING 3).id).rawData = [] ∧
      (sendReplyMessage [] (Message.create [9, 9] TYPE_PING 3).id).type = TYPE_REPLY ∧
      (sendReplyMessage [] (Message.create [9, 9] TYPE_PING 3).id).id =
        (Message.create [9, 9] TYPE_PING 3).id :=
  c3_thm (Message.create [9, 9] TYPE_PING 3) none (by decide) (by decide)

/-- Claim C7.  `send` registers the transaction with the requested timeout
(defaulting to `TransactionHolder.TIMEOUT = 5000` when none is given,
`500` for `ping()`), the timer is armed, and if no event touches the
transaction before the timer fires, the fire rejects the caller's
completion with `TimeoutError('timeout reached')`. -/
theorem c7_thm (s : TransactionHolder) (msg : Message) (topt : Option Nat) (idv : Nat)
    (evs : List HolderEvent) (hevs : ∀ ev ∈ evs, ev.targets ≠ msg.id) :
    (sendRegister s msg topt).transactions msg.id =
        some ⟨msg.id, true, topt.getD TransactionHolder.TIMEOUT⟩ ∧
      TransactionHolder.TIMEOUT = 5000 ∧
      (pingRegister s idv).transactions (Message.create [] TYPE_PING idv).id =
        some ⟨(Message.create [] TYPE_PING idv).id, true, 500⟩ ∧
      ((execTrace (sendRegister s msg topt) evs).timerFire msg.id).log =
        (execTrace (sendRegister s msg topt) evs).log ++
          [(msg.id, Signal.rejected (JsError.timeoutError "timeout reached"), true)] := by
  have hadd : (sendRegister s msg topt).transactions msg.id =
      some ⟨msg.id, true, topt.getD TransactionHolder.TIMEOUT⟩ := by
    unfold sendRegister TransactionHolder.add
    simp
  have hping : (pingRegister s idv).transactions (Message.create [] TYPE_PING idv).id =
      some ⟨(Message.create [] TYPE_PING idv).id, true, 500⟩ := by
    unfold pingRegister sendRegister TransactionHolder.add
    simp
  refine ⟨hadd, rfl, hping, ?_⟩
  have hfinal : (execTrace (sendRegister s msg topt) evs).transactions msg.id =
      some ⟨msg.id, true, topt.getD TransactionHolder.TIMEOUT⟩ := by
    rw [execTrace_other msg.id evs (sendRegister s msg topt) hevs, hadd]
  exact (timerFire_spec _ msg.id _ hfinal rfl).1

/-- Claim C7, witness at concrete inputs: a request registered with the
default timeout, an unrelated event in between, then the timer fires. -/
theorem c7_witness :
    (sendRegister TransactionHolder.init (Message.create [] TYPE_REQUEST 4) none).transactions
        (Message.create [] TYPE_REQUEST 4).id =
        some ⟨(Message.create [] TYPE_REQUEST 4).id, true,
          (none : Option Nat).getD TransactionHolder.TIMEOUT⟩ ∧
      TransactionHolder.TIMEOUT = 5000 ∧
      (pingRegister TransactionHolder.init 2).transactions
          (Message.create [] TYPE_PING 2).id =
        some ⟨(Message.create [] TYPE_PING 2).id, true, 500⟩ ∧
      ((execTrace (sendRegister TransactionHolder.init
            (Message.create [] TYPE_REQUEST 4) none)
          [HolderEvent.resolve 9 none]).timerFire
          (Message.create [] TYPE_REQUEST 4).id).log =
        (execTrace (sendRegister TransactionHolder.init
            (Message.create [] TYPE_REQUEST 4) none)
          [HolderEvent.resolve 9 none]).log ++
          [((Message.create [] TYPE_REQUEST 4).id,
            Signal.rejected (JsError.timeoutError "timeout reached"), true)] :=
  c7_thm TransactionHolder.init (Message.create [] TYPE_REQUEST 4) none 2
    [HolderEvent.resolve 9 none] (by decide)

/-- Claim C9.  `resolve` and `reject` on an id with no pending transaction
are no-ops: no completion is signaled and the map is unchanged; hence the
engine silently discards an inbound REPLY or ERROR whose id matches no
pending request. -/
theorem c9_thm (s : TransactionHolder) (idv : Nat) (msg : Option Message) (e : JsError)
    (h : s.transactions idv = none) :
    s.resolve idv msg = s ∧ s.reject idv e = s ∧
      (∀ (m : Message) (handler : Option (Message → HandlerRes)),
        m.id = idv → m.type = TYPE_REPLY ∨ m.type = TYPE_ERROR →
        execActions s (handleMessage m handler) = s) := by
  have hfun : (fun j => if j = idv then none else s.transactions j) = s.transactions := by
    funext j
    by_cases hj : j = idv
    · rw [if_pos hj, hj, h]
    · rw [if_neg hj]
  have hresAll : ∀ m' : Option Message, s.resolve idv m' = s := by
    intro m'
    unfold TransactionHolder.resolve TransactionHolder.remove
    simp only [h]
    show ({ s with transactions := fun j => if j = idv then none else s.transactions j } :
      TransactionHolder) = s
    rw [hfun]
  have hrejAll : ∀ e' : JsError, s.reject idv e' = s := by
    intro e'
    unfold TransactionHolder.reject TransactionHolder.remove
    simp only [h]
    show ({ s with transactions := fun j => if j = idv then none else s.transactions j } :
      TransactionHolder) = s
    rw [hfun]
  refine ⟨hresAll msg, hrejAll e, ?_⟩
  intro m handler hmid hty
  rcases hty with hty | hty
  · have hne1 : ¬ m.type = TYPE_PING := by rw [hty]; decide
    have hne2 : ¬ m.type = TYPE_REQUEST := by rw [hty]; decide
    unfold handleMessage
    rw [if_neg hne1, if_neg hne2, if_pos hty]
    show s.resolve m.id (some m) = s
    rw [hmid]
    exact hresAll (some m)
  · have hne1 : ¬ m.type = TYPE_PING := by rw [hty]; decide
    have hne2 : ¬ m.type = TYPE_REQUEST := by rw [hty]; decide
    have hne3 : ¬ m.type = TYPE_REPLY := by rw [hty]; decide
    unfold handleMessage
    rw [if_neg hne1, if_neg hne2, if_neg hne3, if_pos hty]
    show s.reject m.id (JsError.fromBytes m.data) = s
    rw [hmid]
    exact hrejAll (JsError.fromBytes m.data)

/-- Claim C9, witness on the empty holder. -/
theorem c9_witness :
    TransactionHolder.init.resolve 3 none = TransactionHolder.init ∧
      TransactionHolder.init.reject 3 (JsError.fromBytes []) = TransactionHolder.init ∧
      (∀ (m : Message) (handler : Option (Message → HandlerRes)),
        m.id = 3 → m.type = TYPE_REPLY ∨ m.type = TYPE_ERROR →
        execActions TransactionHolder.init (handleMessage m handler) =
          TransactionHolder.init) :=
  c9_thm TransactionHolder.init 3 none (JsError.fromBytes []) rfl

end Serialio
